import Mathlib

/-!
Verification of `dace/transformation/dataflow/stencil_detection.py`
(`StencilDetection.can_be_applied` and `StencilDetection.apply`).

The pass works on sympy index expressions carried by dataflow-graph memlets.
We shallowly embed:
* the fragment of sympy expressions the pass manipulates (`SymExpr`), with
  sympy's automatic simplification modelled by normalisation to a sparse
  polynomial normal form (`toPoly` / `fromPoly`);
* dace subsets (`Subset`: `Indices` points and `Range` intervals), array
  descriptors (`Datadesc`) and memlets (`Memlet`);
* `can_be_applied` as a total Lean function returning `Except PyErr Bool`
  (`.error` models a Python exception escaping the analysis);
* the offset-derivation and subset-rewriting part of `apply`, and the final
  graph splice on an explicit dataflow-graph model.
-/

set_option autoImplicit false

namespace StencilDetection

/-! ## Symbolic expression engine

Sympy expressions as the pass sees them.  `add`/`mul` are binary (sympy's
n-ary `Add`/`Mul` nodes are modelled as nested applications; the pass only
ever inspects the head constructor and the free-symbol set, never the arity).
`pow` is restricted to natural exponents, which covers every expression the
pass can meet on affine-or-rejected index arithmetic.  -/

inductive SymExpr where
  | num (n : Int)
  | sym (s : String)
  | add (a b : SymExpr)
  | mul (a b : SymExpr)
  | pow (a : SymExpr) (k : Nat)
deriving DecidableEq, Repr

namespace SymExpr

/-- Python's `numbers.Number` test: sympy registers its numeric classes with
the `numbers` ABC, so `isinstance(idx, Number)` holds exactly for literal
numbers. -/
def isNum : SymExpr → Bool
  | .num _ => true
  | _ => false

/-- `isinstance(idx, sympy.Add)`. -/
def isAdd : SymExpr → Bool
  | .add _ _ => true
  | _ => false

end SymExpr

/-- Insert a string into a list if not already present (set union step). -/
def insertSym (s : String) (l : List String) : List String :=
  if s ∈ l then l else l ++ [s]

def unionSyms (a b : List String) : List String :=
  b.foldl (fun acc s => insertSym s acc) a

/-- `expr.free_symbols`, as a duplicate-free list. -/
def freeSymsList : SymExpr → List String
  | .num _ => []
  | .sym s => [s]
  | .add a b => unionSyms (freeSymsList a) (freeSymsList b)
  | .mul a b => unionSyms (freeSymsList a) (freeSymsList b)
  | .pow a _ => freeSymsList a

/-! ### Polynomial normal form (sympy's automatic simplification)

A monomial is a sorted list of `(symbol, exponent)` pairs with positive
exponents; a polynomial is a sorted list of `(monomial, coefficient)` pairs
with non-zero coefficients.  `fromPoly ∘ toPoly` plays the role of sympy's
canonicalising constructors: it is what the pass's subtraction (`offset`),
substitution (`subs`) and replacement (`replace`) produce. -/

abbrev Mono := List (String × Nat)

abbrev Poly := List (Mono × Int)

def monCmp : Mono → Mono → Ordering
  | [], [] => .eq
  | [], _ :: _ => .lt
  | _ :: _, [] => .gt
  | (s1, k1) :: r1, (s2, k2) :: r2 =>
    match compare s1 s2 with
    | .eq =>
      match compare k1 k2 with
      | .eq => monCmp r1 r2
      | o => o
    | o => o

/-- Insert one term into a sorted polynomial, combining equal monomials and
dropping cancelled terms. -/
def insertTerm (m : Mono) (c : Int) : Poly → Poly
  | [] => if c = 0 then [] else [(m, c)]
  | (m2, c2) :: r =>
    match monCmp m m2 with
    | .lt => if c = 0 then (m2, c2) :: r else (m, c) :: (m2, c2) :: r
    | .gt => (m2, c2) :: insertTerm m c r
    | .eq => if c + c2 = 0 then r else (m, c + c2) :: r

def polyAdd (p q : Poly) : Poly :=
  p.foldr (fun t acc => insertTerm t.1 t.2 acc) q

/-- Insert one factor into a sorted monomial, adding exponents of equal
symbols. -/
def insertFactor (s : String) (k : Nat) : Mono → Mono
  | [] => [(s, k)]
  | (s2, k2) :: r =>
    match compare s s2 with
    | .lt => (s, k) :: (s2, k2) :: r
    | .gt => (s2, k2) :: insertFactor s k r
    | .eq => (s, k + k2) :: r

/-- Merge two sorted monomials, adding exponents of equal symbols. -/
def monMul (a b : Mono) : Mono :=
  a.foldr (fun t acc => insertFactor t.1 t.2 acc) b

def polyMulTerm (m : Mono) (c : Int) : Poly → Poly
  | [] => []
  | (m2, c2) :: r => polyAdd [(monMul m m2, c * c2)] (polyMulTerm m c r)

def polyMul (p q : Poly) : Poly :=
  p.foldl (fun acc t => polyAdd acc (polyMulTerm t.1 t.2 q)) []

def polyPow (p : Poly) : Nat → Poly
  | 0 => [([], 1)]
  | k + 1 => polyMul p (polyPow p k)

def polyNeg (p : Poly) : Poly :=
  p.map (fun t => (t.1, -t.2))

def toPoly : SymExpr → Poly
  | .num n => if n = 0 then [] else [([], n)]
  | .sym s => [([(s, 1)], 1)]
  | .add a b => polyAdd (toPoly a) (toPoly b)
  | .mul a b => polyMul (toPoly a) (toPoly b)
  | .pow a k => polyPow (toPoly a) k

def monoFactors (m : Mono) : List SymExpr :=
  m.map (fun t => if t.2 = 1 then .sym t.1 else .pow (.sym t.1) t.2)

def mulChain : List SymExpr → SymExpr
  | [] => .num 1
  | [e] => e
  | e :: r => .mul e (mulChain r)

def termExpr (m : Mono) (c : Int) : SymExpr :=
  match m with
  | [] => .num c
  | _ => if c = 1 then mulChain (monoFactors m) else .mul (.num c) (mulChain (monoFactors m))

def addChain : List SymExpr → SymExpr
  | [] => .num 0
  | [e] => e
  | e :: r => .add e (addChain r)

def fromPoly (p : Poly) : SymExpr :=
  addChain (p.map (fun t => termExpr t.1 t.2))

/-- Sympy's automatic canonical simplification of an expression. -/
def simp0 (e : SymExpr) : SymExpr :=
  fromPoly (toPoly e)

/-- Canonicalised subtraction `a - b` (what `Subset.offset(..., negative=True)`
performs element-wise, with sympy simplifying the result). -/
def subSimp (a b : SymExpr) : SymExpr :=
  fromPoly (polyAdd (toPoly a) (polyNeg (toPoly b)))

/-- Structural substitution of a single symbol (the tree-rewriting part of
sympy's `expr.subs(p, v)`). -/
def replace1 (p : String) (v : SymExpr) : SymExpr → SymExpr
  | .num n => .num n
  | .sym s => if s = p then v else .sym s
  | .add a b => .add (replace1 p v a) (replace1 p v b)
  | .mul a b => .mul (replace1 p v a) (replace1 p v b)
  | .pow a k => .pow (replace1 p v a) k

/-- `expr.subs(p, v)`: substitute, then let sympy re-canonicalise. -/
def substSimp (e : SymExpr) (p : String) (v : SymExpr) : SymExpr :=
  simp0 (replace1 p v e)

/-- Simultaneous substitution from a replacement dictionary (first matching
entry wins; the dictionary built by `apply` has distinct keys). -/
def lookupAssoc (rd : List (String × SymExpr)) (s : String) : Option SymExpr :=
  match rd with
  | [] => none
  | (k, v) :: r => if k = s then some v else lookupAssoc r s

def replaceAllRaw (rd : List (String × SymExpr)) : SymExpr → SymExpr
  | .num n => .num n
  | .sym s =>
    match lookupAssoc rd s with
    | some v => v
    | none => .sym s
  | .add a b => .add (replaceAllRaw rd a) (replaceAllRaw rd b)
  | .mul a b => .mul (replaceAllRaw rd a) (replaceAllRaw rd b)
  | .pow a k => .pow (replaceAllRaw rd a) k

/-- `expr.subs(rdict)` followed by sympy canonicalisation. -/
def replaceAll (rd : List (String × SymExpr)) (e : SymExpr) : SymExpr :=
  simp0 (replaceAllRaw rd e)

/-- `int(str(nval))`: succeeds exactly on literal integers (the string form
of a rational or of any symbolic expression fails `int`). -/
def toIntOpt : SymExpr → Option Int
  | .num n => some n
  | _ => none

/-! ## Data model: descriptors, subsets, memlets

`dace.data` descriptors: the pass branches on `Scalar`, `Array`, `View` and
treats every other descriptor kind (`other`, e.g. `Stream`) in the final
`else` branches. -/

inductive Datadesc where
  | scalar
  | array (shape : List SymExpr)
  | view (shape : List SymExpr)
  | other
deriving DecidableEq, Repr

/-- Modelled from the spec: dace's `subsets.py` is not under `src/`.  The spec
describes an access pattern as "either a *range* (one interval per dimension)
or a *point* (one index expression per dimension)"; `range` therefore carries
one `(lower, upper)` interval per dimension, which matches the only uses the
pass makes of a range dimension (`rng[0]` and `rng[1]`). -/
inductive Subset where
  | indices (idx : List SymExpr)
  | range (dims : List (SymExpr × SymExpr))
deriving DecidableEq, Repr

/-- `subset.min_element()`: the point itself for `Indices`, the per-dimension
lower bounds for `Range`. -/
def minElement : Subset → List SymExpr
  | .indices l => l
  | .range dims => dims.map (fun d => d.1)

/-- Modelled from the spec: number of points covered by one range dimension
("interval"), as far as it reduces to a literal; `none` models a symbolic
element count. -/
def dimCount (b e : SymExpr) : Option Int :=
  match subSimp e b with
  | .num d => some (max (d + 1) 0)
  | _ => none

/-- Modelled from the spec: `subset.num_elements()`.  An `Indices` point
covers exactly one element.  For a `Range` the counts of the dimensions are
multiplied; a literal zero factor makes the whole product the literal zero
even if other factors are symbolic (as in sympy), and otherwise any symbolic
factor keeps the product symbolic (`none`). -/
def numElements : Subset → Option Int
  | .indices _ => some 1
  | .range dims =>
    let counts := dims.map (fun d => dimCount d.1 d.2)
    if counts.contains (some 0) then some 0
    else counts.foldl
      (fun acc c =>
        match acc, c with
        | some x, some y => some (x * y)
        | _, _ => none)
      (some 1)

/-- The memlet data the pass reads from an access edge: the array name
(`m.data`, `none` for an empty memlet), the subset, and the presence of a
write-conflict-resolution function (`m.wcr`). -/
structure Memlet where
  data : Option String
  subset : Subset
  wcr : Bool
deriving DecidableEq, Repr

/-- A Python exception escaping `can_be_applied` or `apply`. -/
inductive PyErr where
  | keyError
  | typeError
  | assertionError
deriving DecidableEq, Repr

instance exceptDecEq {ε α : Type} [DecidableEq ε] [DecidableEq α] : DecidableEq (Except ε α) :=
  fun x y =>
    match x, y with
    | .ok a, .ok b =>
      if h : a = b then isTrue (by rw [h]) else isFalse (fun hc => by cases hc; exact h rfl)
    | .error a, .error b =>
      if h : a = b then isTrue (by rw [h]) else isFalse (fun hc => by cases hc; exact h rfl)
    | .ok _, .error _ => isFalse (fun hc => by cases hc)
    | .error _, .ok _ => isFalse (fun hc => by cases hc)

/-! ## `can_be_applied`

The state of a matched candidate, restricted to exactly the fields the
analysis reads.  `arrays` is `sdfg.arrays`; grouping accesses "by descriptor"
in the code keys a dict by the descriptor object, and since `sdfg.arrays`
holds one descriptor object per array name this is grouping by array name. -/

structure MatchState where
  scopeNodeCount : Nat
  params : List String
  entryOutEdges : List Memlet
  exitInEdges : List Memlet
  arrays : String → Datadesc

/-- Append an access to its array's group, preserving dict insertion order. -/
def groupInsert (nm : String) (sub : Subset) : List (String × List Subset) → List (String × List Subset)
  | [] => [(nm, [sub])]
  | (k, l) :: r =>
    if k = nm then (k, l ++ [sub]) :: r
    else (k, l) :: groupInsert nm sub r

def groupInputsGo (acc : List (String × List Subset)) : List Memlet → List (String × List Subset)
  | [] => acc
  | m :: rest =>
    match m.data with
    | none => groupInputsGo acc rest
    | some nm => groupInputsGo (groupInsert nm m.subset acc) rest

/-- The `inputs` dict: group the memlets on `graph.out_edges(map_entry)` by
array, in edge order, skipping empty memlets (`if not m.data: continue`). -/
def groupInputs (ms : List Memlet) : List (String × List Subset) :=
  groupInputsGo [] ms

/-- Classification of one dimension's index expression: a bare `Symbol`
yields itself; an `Add` with exactly one free symbol yields that symbol;
anything else rejects (`none`). -/
def bidxOf : SymExpr → Option String
  | .sym s => some s
  | .add a b =>
    match freeSymsList (.add a b) with
    | [s] => some s
    | _ => none
  | _ => none

/-- The per-access index loop of `can_be_applied` (both for inputs and for
outputs): classify every dimension, removing each referenced symbol from the
set of unmatched iteration parameters; succeed iff no dimension rejects and
no parameter is left unmatched. -/
def coverageGo (unmatched : List String) : List SymExpr → Bool
  | [] => unmatched.isEmpty
  | idx :: rest =>
    match bidxOf idx with
    | none => false
    | some b => coverageGo (unmatched.erase b) rest

def coverageCheck (params : List String) (indices : List SymExpr) : Bool :=
  coverageGo params indices

/-- One pass of lines 67-94: iterate the accesses of one input array.
`first` is `first_access` (the reference access, set by the first iteration
and never changed afterwards), `sf` is the running `stencil_found`.  `none`
models `return False`; this loop raises no exception (`!=` on sympy
expressions is structural and returns a bool). -/
def inputAccessLoop (params : List String) : List Subset → Option Subset → Bool → Option Bool
  | [], _, sf => some sf
  | a :: rest, first, sf =>
    if numElements a ≠ some 1 then none
    else
      match first with
      | some fa =>
        let diffs := List.zipWith subSimp (minElement a) (minElement fa)
        if diffs.all SymExpr.isNum then
          let sf' := sf || diffs.any (fun d => d ≠ .num 0)
          if coverageCheck params (minElement a) then inputAccessLoop params rest (some fa) sf'
          else none
        else none
      | none =>
        if coverageCheck params (minElement a) then inputAccessLoop params rest (some a) sf
        else none

/-- Lines 60-96: the loop over input arrays.  Scalars are skipped; arrays and
views whose shape is literally `[1]` are skipped; any other descriptor kind
hits the final `else: return False`. -/
def inputsLoop (arrays : String → Datadesc) (params : List String) :
    List (String × List Subset) → Bool → Option Bool
  | [], sf => some sf
  | (nm, accs) :: rest, sf =>
    match arrays nm with
    | .scalar => inputsLoop arrays params rest sf
    | .array shape =>
      if shape = [.num 1] then inputsLoop arrays params rest sf
      else
        match inputAccessLoop params accs none sf with
        | none => none
        | some sf' => inputsLoop arrays params rest sf'
    | .view shape =>
      if shape = [.num 1] then inputsLoop arrays params rest sf
      else
        match inputAccessLoop params accs none sf with
        | none => none
        | some sf' => inputsLoop arrays params rest sf'
    | .other => none

/-- Lines 98-105: build the `outputs` dict from `graph.in_edges(map_exit)`.
A write-conflict-resolution function causes `return False` (`.ok none`); an
empty memlet reaches `sdfg.arrays[m.data]` with `m.data = None`, which raises
`KeyError` (the input loop guards against this, this loop does not). -/
def gatherOutputsGo (acc : List (String × List Subset)) :
    List Memlet → Except PyErr (Option (List (String × List Subset)))
  | [] => .ok (some acc)
  | m :: rest =>
    if m.wcr then .ok none
    else
      match m.data with
      | none => .error .keyError
      | some nm => gatherOutputsGo (groupInsert nm m.subset acc) rest

def gatherOutputs (ms : List Memlet) : Except PyErr (Option (List (String × List Subset))) :=
  gatherOutputsGo [] ms

/-- Lines 109-126: per-access output checks.  `a.num_elements() > 1` on a
symbolic element count leaves an unevaluated sympy relational, whose truth
value raises `TypeError`; on a literal count it is an honest comparison. -/
def outputAccessLoop (params : List String) : List Subset → Except PyErr Bool
  | [] => .ok true
  | a :: rest =>
    match numElements a with
    | none => .error .typeError
    | some k =>
      if k > 1 then .ok false
      else
        if coverageCheck params (minElement a) then outputAccessLoop params rest
        else .ok false

/-- Lines 107-128: the loop over output arrays; only `Array`/`View` pass the
descriptor test, everything else (including `Scalar`) is `return False`. -/
def outputsLoop (arrays : String → Datadesc) (params : List String) :
    List (String × List Subset) → Except PyErr Bool
  | [] => .ok true
  | (nm, accs) :: rest =>
    match arrays nm with
    | .array _ =>
      match outputAccessLoop params accs with
      | .ok true => outputsLoop arrays params rest
      | .ok false => .ok false
      | .error e => .error e
    | .view _ =>
      match outputAccessLoop params accs with
      | .ok true => outputsLoop arrays params rest
      | .ok false => .ok false
      | .error e => .error e
    | _ => .ok false

/-- The body of `can_be_applied` after the scope-size test, taking the input
groups explicitly (used to state skipping properties). -/
def canBeAppliedFromGroups (arrays : String → Datadesc) (params : List String)
    (inGroups : List (String × List Subset)) (exitEdges : List Memlet) :
    Except PyErr Bool :=
  match inputsLoop arrays params inGroups false with
  | none => .ok false
  | some sf =>
    match gatherOutputs exitEdges with
    | .error e => .error e
    | .ok none => .ok false
    | .ok (some outGroups) =>
      match outputsLoop arrays params outGroups with
      | .error e => .error e
      | .ok false => .ok false
      | .ok true => .ok sf

/-- `StencilDetection.can_be_applied` (lines 33-130).  The `strict` flag is
part of the interface but never read.  `.ok b` is the returned verdict,
`.error` a Python exception escaping the analysis. -/
def canBeApplied (st : MatchState) (strict : Bool) : Except PyErr Bool :=
  if st.scopeNodeCount > 3 then .ok false
  else canBeAppliedFromGroups st.arrays st.params (groupInputs st.entryOutEdges) st.exitInEdges

/-! ## `apply`: offset derivation and subset rewriting (lines 154-229)

The derivation only reads the map parameters, the lower bound of each
parameter's range (`r[0]`), and the subsets on `state.out_edges(tasklet)`
(which, in a matched 3-node scope, are exactly the memlets entering the map
exit). -/

structure ApplyCtx where
  params : List String
  lowers : List SymExpr
  taskOutSubsets : List Subset

/-- Prepend an optional value. -/
def consOpt (o : Option Int) (l : List Int) : List Int :=
  match o with
  | some v => v :: l
  | none => l

/-- Lines 161-171, the `Range` inner loop for one parameter: `assert
rng[0] == rng[1]` (structural sympy equality), then for the dimensions whose
lower bound mentions `p`, substitute `p = lo` and keep the values that
convert to `int`. -/
def collectDims (p : String) (lo : SymExpr) : List (SymExpr × SymExpr) → Except PyErr (List Int)
  | [] => .ok []
  | (b, e) :: rest =>
    if b ≠ e then .error .assertionError
    else
      match collectDims p lo rest with
      | .error err => .error err
      | .ok vals =>
        if p ∈ freeSymsList b then .ok (consOpt (toIntOpt (substSimp b p lo)) vals)
        else .ok vals

/-- Lines 172-181, the `Indices` inner loop (no assertion). -/
def collectIdxs (p : String) (lo : SymExpr) : List SymExpr → List Int
  | [] => []
  | idx :: rest =>
    if p ∈ freeSymsList idx then consOpt (toIntOpt (substSimp idx p lo)) (collectIdxs p lo rest)
    else collectIdxs p lo rest

/-- Lines 158-181: gather the integer substitution values for one parameter
over all output edges of the tasklet. -/
def collectVals (p : String) (lo : SymExpr) : List Subset → Except PyErr (List Int)
  | [] => .ok []
  | s :: rest =>
    match s with
    | .range dims =>
      match collectDims p lo dims with
      | .error err => .error err
      | .ok vals =>
        match collectVals p lo rest with
        | .error err => .error err
        | .ok vals2 => .ok (vals ++ vals2)
    | .indices idxs =>
      match collectVals p lo rest with
      | .error err => .error err
      | .ok vals2 => .ok (collectIdxs p lo idxs ++ vals2)

/-- `min(values)` over a non-empty collection, `None` when empty
(lines 182-183). -/
def optMin (vals : List Int) : Option Int :=
  match vals with
  | [] => none
  | v :: r => some (r.foldl min v)

def deriveOffsetsGo (tOut : List Subset) : List (String × SymExpr) → Except PyErr (List (Option Int))
  | [] => .ok []
  | (p, lo) :: rest =>
    match collectVals p lo tOut with
    | .error err => .error err
    | .ok vals =>
      match deriveOffsetsGo tOut rest with
      | .error err => .error err
      | .ok offs => .ok (optMin vals :: offs)

/-- Lines 154-183: the per-parameter offsets (`offsets`), or the Python
exception (the failing `assert`) that aborts `apply`. -/
def deriveOffsets (ctx : ApplyCtx) : Except PyErr (List (Option Int)) :=
  deriveOffsetsGo ctx.taskOutSubsets (ctx.params.zip ctx.lowers)

/-- Lines 185-193: the replacement dictionary.  `if offsets[i]:` is Python
truthiness, so both a missing offset and a zero offset take the `else`
branch mapping `p` to the raw lower bound; a non-zero offset maps `p` to the
parsed string `f'{r[0]} - {offsets[i]}'`, i.e. the canonicalised
`lo - offset`. -/
def rdictEntry (p : String) (lo : SymExpr) (off : Option Int) : String × SymExpr :=
  match off with
  | some o => if o ≠ 0 then (p, subSimp lo (.num o)) else (p, lo)
  | none => (p, lo)

def rdictOf (params : List String) (lowers : List SymExpr) (offs : List (Option Int)) :
    List (String × SymExpr) :=
  ((params.zip lowers).zip offs).map (fun t => rdictEntry t.1.1 t.1.2 t.2)

/-- Lines 206 and 219: `e.data.subset.replace(rdict)` — substitute the
replacement dictionary into every expression of the subset. -/
def rewriteSubset (rd : List (String × SymExpr)) : Subset → Subset
  | .indices l => .indices (l.map (replaceAll rd))
  | .range dims => .range (dims.map (fun d => (replaceAll rd d.1, replaceAll rd d.2)))

/-- The specification-side description of the collected values for a
parameter `p` with lower bound `lo`: for every output-side access expression
in which `p` appears, the result of substituting `p = lo`, kept when it
reduces to a literal integer. -/
def specValues (p : String) (lo : SymExpr) : List Subset → List Int
  | [] => []
  | s :: rest =>
    (minElement s).filterMap
      (fun ex => if p ∈ freeSymsList ex then toIntOpt (substSimp ex p lo) else none) ++
    specValues p lo rest

/-- The amended linear shapes for one output dimension: the bare parameter or
the parameter plus an integer constant (in either canonical operand order). -/
def LinIn (p : String) (c : Int) (ex : SymExpr) : Prop :=
  (ex = .sym p ∧ c = 0) ∨ ex = .add (.num c) (.sym p) ∨ ex = .add (.sym p) (.num c)

/-! ## `apply`: the final graph splice (lines 249-270)

A minimal dataflow-graph model: nodes are identifiers, edges carry the two
endpoints, the array name of the memlet (`none` for an empty memlet), a
subset and a destination/source connector. -/

structure GEdge where
  src : Nat
  dst : Nat
  data : Option String
  sub : Subset
  srcConn : Option String
  dstConn : Option String
deriving DecidableEq, Repr

structure DGraph where
  nodes : List Nat
  edges : List GEdge
deriving DecidableEq, Repr

/-- Keep the first occurrence of each element (dict-key insertion order). -/
def dedupKeep (l : List String) : List String :=
  l.foldl (fun acc s => insertSym s acc) []

/-- `Memlet.from_array(d, desc)`: the full-array access `[0:s0, 0:s1, ...]`.
Scalars get the single-element shape `[1]`. -/
def shapeOf : Datadesc → List SymExpr
  | .scalar => [.num 1]
  | .array sh => sh
  | .view sh => sh
  | .other => [.num 1]

def fullSubset (desc : Datadesc) : Subset :=
  .range ((shapeOf desc).map (fun s => (.num 0, subSimp s (.num 1))))

/-- `inputs[e.data.data] = e.src` over `state.in_edges(map_entry)`: a dict
assignment, so a later edge carrying the same array overwrites an earlier
one. -/
def assocPut (k : String) (v : Nat) : List (String × Nat) → List (String × Nat)
  | [] => [(k, v)]
  | (k2, v2) :: r => if k2 = k then (k2, v) :: r else (k2, v2) :: assocPut k v r

def assocFind (k : String) : List (String × Nat) → Option Nat
  | [] => none
  | (k2, v2) :: r => if k2 = k then some v2 else assocFind k r

def buildPreds (entry : Nat) (inData : List String) (edges : List GEdge) : List (String × Nat) :=
  edges.foldl
    (fun acc e =>
      if e.dst = entry then
        match e.data with
        | some d => if d ∈ inData then assocPut d e.src acc else acc
        | none => acc
      else acc)
    []

def buildSuccs (exitN : Nat) (outData : List String) (edges : List GEdge) : List (String × Nat) :=
  edges.foldl
    (fun acc e =>
      if e.src = exitN then
        match e.data with
        | some d => if d ∈ outData then assocPut d e.dst acc else acc
        | none => acc
      else acc)
    []

/-- The keys of the `in_data` dict: the arrays on the tasklet's input edges,
in first-appearance order (lines 205-216). -/
def inDataOf (g : DGraph) (task : Nat) : List String :=
  dedupKeep ((g.edges.filter (fun e => e.dst = task)).filterMap (fun e => e.data))

/-- The keys of the `out_data` dict (lines 218-229). -/
def outDataOf (g : DGraph) (task : Nat) : List String :=
  dedupKeep ((g.edges.filter (fun e => e.src = task)).filterMap (fun e => e.data))

/-- The reconnecting edge of `add_memlet_path`: a full-array access between
the external neighbour and the stencil node's canonical connector. -/
def pathEdge (arrays : String → Datadesc) (stencil : Nat) (toStencil : Bool)
    (n : Nat) (d : String) : GEdge :=
  if toStencil then
    GEdge.mk n stencil (some d) (fullSubset (arrays d)) none (some ("__" ++ d))
  else
    GEdge.mk stencil n (some d) (fullSubset (arrays d)) (some ("__" ++ d)) none

/-- Add the memlet paths of lines 259-270; a tasklet array with no recorded
external neighbour is a `KeyError` (`inputs[d]`). -/
def addPaths (arrays : String → Datadesc) (stencil : Nat) (assoc : List (String × Nat))
    (toStencil : Bool) (base : List GEdge) : List String → Except PyErr (List GEdge)
  | [] => .ok base
  | d :: rest =>
    match assocFind d assoc with
    | none => .error .keyError
    | some n =>
      addPaths arrays stencil assoc toStencil (base ++ [pathEdge arrays stencil toStencil n d]) rest

/-- Lines 249-270: record the external neighbours, remove the matched scope
nodes with all their incident edges, and connect the stencil node.  The
stencil node itself was added in line 247; `in_data`/`out_data` are the
arrays on the tasklet's input/output edges (lines 205-229). -/
def spliceApply (arrays : String → Datadesc) (g : DGraph)
    (entry task exitN stencil : Nat) : Except PyErr DGraph :=
  let scope := [entry, task, exitN]
  let preds := buildPreds entry (inDataOf g task) g.edges
  let succs := buildSuccs exitN (outDataOf g task) g.edges
  let nodes2 := (g.nodes ++ [stencil]).filter (fun n => n ∉ scope)
  let kept := g.edges.filter (fun e => e.src ∉ scope ∧ e.dst ∉ scope)
  match addPaths arrays stencil preds true kept (inDataOf g task) with
  | .error err => .error err
  | .ok edges2 =>
    match addPaths arrays stencil succs false edges2 (outDataOf g task) with
    | .error err => .error err
    | .ok edges3 => .ok (DGraph.mk nodes2 edges3)

/-! ## Concrete candidates used across the development -/

/-- Two 1-D arrays of symbolic size `N`; every other name is an unsupported
descriptor. -/
def arrA (nm : String) : Datadesc :=
  if nm = "A" then .array [.sym "N"] else if nm = "B" then .array [.sym "N"] else .other

/-- Input edges of a classic 3-point-free stencil fragment: `B[i]` and
`B[i+1]`. -/
def inEdgesB : List Memlet :=
  [Memlet.mk (some "B") (.indices [.sym "i"]) false,
   Memlet.mk (some "B") (.indices [.add (.num 1) (.sym "i")]) false]

/-- Output edge `A[i]`. -/
def outEdgesA : List Memlet :=
  [Memlet.mk (some "A") (.indices [.sym "i"]) false]

/-- The baseline accepted candidate. -/
def stBase : MatchState :=
  MatchState.mk 3 ["i"] inEdgesB outEdgesA arrA

/-! ## Arithmetic computation lemmas -/

theorem simp0_num (n : Int) : simp0 (.num n) = .num n := by
  by_cases h : n = 0
  · subst h; rfl
  · simp [simp0, toPoly, h, fromPoly, addChain, termExpr]

theorem simp0_add_num (a b : Int) : simp0 (.add (.num a) (.num b)) = .num (a + b) := by
  by_cases ha : a = 0
  · subst ha
    simp only [simp0, toPoly, if_pos rfl]
    by_cases hb : b = 0
    · subst hb; rfl
    · simp [polyAdd, fromPoly, addChain, termExpr, hb]
  · by_cases hb : b = 0
    · subst hb
      simp [simp0, toPoly, ha, polyAdd, insertTerm, fromPoly, addChain, termExpr]
    · by_cases hab : a + b = 0
      · rw [hab]
        simp [simp0, toPoly, ha, hb, polyAdd, insertTerm, monCmp, hab, fromPoly, addChain]
      · simp [simp0, toPoly, ha, hb, polyAdd, insertTerm, monCmp, hab, fromPoly, addChain, termExpr]

theorem subSimp_num (a b : Int) : subSimp (.num a) (.num b) = .num (a - b) := by
  by_cases ha : a = 0
  · subst ha
    by_cases hb : b = 0
    · subst hb; rfl
    · simp [subSimp, toPoly, polyNeg, polyAdd, hb, fromPoly, addChain, termExpr]
  · by_cases hb : b = 0
    · subst hb
      simp [subSimp, toPoly, polyNeg, polyAdd, ha, insertTerm, fromPoly, addChain, termExpr]
    · by_cases hab : a - b = 0
      · have : a + -b = 0 := by omega
        simp [subSimp, toPoly, polyNeg, polyAdd, ha, hb, insertTerm, monCmp, this, hab,
          fromPoly, addChain]
      · have : ¬(a + -b = 0) := by omega
        have hab2 : a + -b = a - b := by omega
        simp [subSimp, toPoly, polyNeg, polyAdd, ha, hb, insertTerm, monCmp, this, hab2,
          fromPoly, addChain, termExpr, hab]

/-! ## The `stencil_found` characterisation (claim C1) -/

/-- A literal non-zero integer (what passes both the `isinstance(idx, Number)`
test and the `idx != 0` test). -/
def isNonzeroNum : SymExpr → Bool
  | .num k => decide (k ≠ 0)
  | _ => false

/-- Specification-side: the accesses of one array exhibit a non-zero literal
element-wise offset from the first (reference) access. -/
def accsStencil (accs : List Subset) : Bool :=
  match accs with
  | [] => false
  | fa :: rest =>
    rest.any (fun a => (List.zipWith subSimp (minElement a) (minElement fa)).any isNonzeroNum)

/-- Specification-side: one input-array group contributes a stencil offset
(scalars, singleton `[1]` arrays and unsupported descriptors never do). -/
def groupStencil (arrays : String → Datadesc) (t : String × List Subset) : Bool :=
  match arrays t.1 with
  | .array shape => if shape = [.num 1] then false else accsStencil t.2
  | .view shape => if shape = [.num 1] then false else accsStencil t.2
  | _ => false

/-- Specification-side `stencil_found`: some input access exhibits a non-zero
integer element-wise offset from the reference access to the same array. -/
def specStencilFound (arrays : String → Datadesc) (groups : List (String × List Subset)) : Bool :=
  groups.any (groupStencil arrays)

theorem any_ne_eq_any_nonzero (l : List SymExpr) (h : l.all SymExpr.isNum = true) :
    (l.any (fun d => decide (d ≠ .num 0))) = l.any isNonzeroNum := by
  induction l with
  | nil => rfl
  | cons d r ih =>
    simp only [List.all_cons, Bool.and_eq_true] at h
    obtain ⟨hd, hr⟩ := h
    cases d with
    | num k =>
      simp only [List.any_cons]
      rw [ih hr]
      congr 1
      simp [isNonzeroNum]
    | sym s => simp [SymExpr.isNum] at hd
    | add a b => simp [SymExpr.isNum] at hd
    | mul a b => simp [SymExpr.isNum] at hd
    | pow a k => simp [SymExpr.isNum] at hd

theorem inputAccessLoop_sf (params : List String) (accs : List Subset) (fa : Subset)
    (sf b : Bool) (h : inputAccessLoop params accs (some fa) sf = some b) :
    b = (sf ||
      accs.any (fun a => (List.zipWith subSimp (minElement a) (minElement fa)).any isNonzeroNum)) := by
  induction accs generalizing sf with
  | nil =>
    simp only [inputAccessLoop, Option.some.injEq] at h
    simp [h.symm]
  | cons a rest ih =>
    rw [inputAccessLoop] at h
    by_cases hne : numElements a ≠ some 1
    · rw [if_pos hne] at h; cases h
    · rw [if_neg hne] at h
      by_cases hnum : (List.zipWith subSimp (minElement a) (minElement fa)).all SymExpr.isNum
      · rw [if_pos hnum] at h
        by_cases hcov : coverageCheck params (minElement a)
        · rw [if_pos hcov] at h
          have := ih _ h
          rw [this, any_ne_eq_any_nonzero _ hnum]
          simp [List.any_cons, Bool.or_assoc]
        · rw [if_neg hcov] at h; cases h
      · rw [if_neg hnum] at h; cases h

theorem inputAccessLoop_start (params : List String) (accs : List Subset) (sf b : Bool)
    (h : inputAccessLoop params accs none sf = some b) :
    b = (sf || accsStencil accs) := by
  cases accs with
  | nil =>
    simp only [inputAccessLoop, Option.some.injEq] at h
    simp [h.symm, accsStencil]
  | cons a rest =>
    rw [inputAccessLoop] at h
    by_cases hne : numElements a ≠ some 1
    · rw [if_pos hne] at h; cases h
    · rw [if_neg hne] at h
      by_cases hcov : coverageCheck params (minElement a)
      · rw [if_pos hcov] at h
        exact inputAccessLoop_sf _ _ _ _ _ h
      · rw [if_neg hcov] at h; cases h

theorem inputsLoop_sf (arrays : String → Datadesc) (params : List String)
    (groups : List (String × List Subset)) (sf b : Bool)
    (h : inputsLoop arrays params groups sf = some b) :
    b = (sf || specStencilFound arrays groups) := by
  induction groups generalizing sf with
  | nil =>
    simp only [inputsLoop, Option.some.injEq] at h
    simp [h.symm, specStencilFound]
  | cons g rest ih =>
    obtain ⟨nm, accs⟩ := g
    rw [inputsLoop] at h
    rcases hd : arrays nm with _ | shape | shape | _
    · rw [hd] at h
      dsimp only at h
      rw [ih _ h, specStencilFound]
      simp [List.any_cons, groupStencil, hd, specStencilFound]
    · rw [hd] at h
      dsimp only at h
      by_cases hsh : shape = [SymExpr.num 1]
      · rw [if_pos hsh] at h
        rw [ih _ h, specStencilFound]
        simp [List.any_cons, groupStencil, hd, hsh, specStencilFound]
      · rw [if_neg hsh] at h
        rcases hacc : inputAccessLoop params accs none sf with _ | sf2
        · rw [hacc] at h; cases h
        · rw [hacc] at h
          have h1 := inputAccessLoop_start _ _ _ _ hacc
          rw [ih _ h, h1, specStencilFound]
          simp [List.any_cons, groupStencil, hd, hsh, specStencilFound, Bool.or_assoc]
    · rw [hd] at h
      dsimp only at h
      by_cases hsh : shape = [SymExpr.num 1]
      · rw [if_pos hsh] at h
        rw [ih _ h, specStencilFound]
        simp [List.any_cons, groupStencil, hd, hsh, specStencilFound]
      · rw [if_neg hsh] at h
        rcases hacc : inputAccessLoop params accs none sf with _ | sf2
        · rw [hacc] at h; cases h
        · rw [hacc] at h
          have h1 := inputAccessLoop_start _ _ _ _ hacc
          rw [ih _ h, h1, specStencilFound]
          simp [List.any_cons, groupStencil, hd, hsh, specStencilFound, Bool.or_assoc]
    · rw [hd] at h
      dsimp only at h
      cases h

/-- Inversion: an accepted candidate passed the scope-size test, the input
loop (with `stencil_found` ending up `true`), the output gathering and the
output checks. -/
theorem canBeApplied_ok_true (st : MatchState) (strict : Bool)
    (h : canBeApplied st strict = .ok true) :
    st.scopeNodeCount ≤ 3 ∧
    inputsLoop st.arrays st.params (groupInputs st.entryOutEdges) false = some true ∧
    ∃ og, gatherOutputs st.exitInEdges = .ok (some og) ∧
      outputsLoop st.arrays st.params og = .ok true := by
  rw [canBeApplied] at h
  by_cases hc : st.scopeNodeCount > 3
  · rw [if_pos hc] at h; simp at h
  · rw [if_neg hc] at h
    refine ⟨by omega, ?_⟩
    rw [canBeAppliedFromGroups] at h
    rcases hin : inputsLoop st.arrays st.params (groupInputs st.entryOutEdges) false with _ | sf
    · rw [hin] at h; simp at h
    · rw [hin] at h
      dsimp only at h
      rcases hg : gatherOutputs st.exitInEdges with e | og
      · rw [hg] at h; simp at h
      · rw [hg] at h
        rcases og with _ | og
        · simp at h
        · dsimp only at h
          rcases ho : outputsLoop st.arrays st.params og with e | b
          · rw [ho] at h; simp at h
          · rcases b with _ | _
            · rw [ho] at h; simp at h
            · rw [ho] at h
              dsimp only at h
              simp only [Except.ok.injEq] at h
              exact ⟨by rw [h], og, rfl, ho⟩

/-- C1: `can_be_applied` returns `True` exactly on the presence of a non-zero
literal element-wise input offset.  First conjunct: acceptance implies some
input access has a non-zero integer offset from its array's reference access.
Second conjunct: when the scope is structurally valid and no check rejects
(the input loop completes and the output phase passes), the verdict is
exactly the offset criterion — in particular all-identical input accesses
give `False`, and a non-zero literal offset gives `True`. -/
theorem stencil_C1 :
    (∀ (st : MatchState) (strict : Bool),
      canBeApplied st strict = .ok true →
      specStencilFound st.arrays (groupInputs st.entryOutEdges) = true) ∧
    (∀ (st : MatchState) (strict : Bool) (sf : Bool) (og : List (String × List Subset)),
      st.scopeNodeCount ≤ 3 →
      inputsLoop st.arrays st.params (groupInputs st.entryOutEdges) false = some sf →
      gatherOutputs st.exitInEdges = .ok (some og) →
      outputsLoop st.arrays st.params og = .ok true →
      canBeApplied st strict = .ok (specStencilFound st.arrays (groupInputs st.entryOutEdges))) := by
  constructor
  · intro st strict h
    obtain ⟨-, hin, -⟩ := canBeApplied_ok_true st strict h
    have := inputsLoop_sf _ _ _ _ _ hin
    simp only [Bool.false_or] at this
    exact this.symm
  · intro st strict sf og hc hin hg ho
    have hsf := inputsLoop_sf _ _ _ _ _ hin
    simp only [Bool.false_or] at hsf
    rw [canBeApplied, if_neg (by omega), canBeAppliedFromGroups, hin]
    dsimp only
    rw [hg]
    dsimp only
    rw [ho]
    dsimp only
    rw [hsf]

/-- Witness for C1 at the baseline accepted candidate. -/
theorem stencil_C1_witness :
    specStencilFound stBase.arrays (groupInputs stBase.entryOutEdges) = true ∧
    canBeApplied stBase false = .ok (specStencilFound stBase.arrays (groupInputs stBase.entryOutEdges)) :=
  ⟨stencil_C1.1 stBase false (by decide),
   stencil_C1.2 stBase false true [("A", [Subset.indices [SymExpr.sym "i"]])]
     (by decide) (by decide) (by decide) (by decide)⟩

/-! ## Coverage and classification lemmas (claims C3, C4, C10) -/

/-- The iteration symbols a checked access references: per dimension, the
bare symbol or the unique free symbol of an `Add`. -/
def coveredB (params : List String) (indices : List SymExpr) : Bool :=
  params.all (fun p => p ∈ indices.filterMap bidxOf)

theorem coverageGo_covers (idxs : List SymExpr) :
    ∀ unmatched, coverageGo unmatched idxs = true →
      ∀ p ∈ unmatched, p ∈ idxs.filterMap bidxOf := by
  induction idxs with
  | nil =>
    intro unmatched h p hp
    rw [coverageGo] at h
    rw [List.isEmpty_iff] at h
    rw [h] at hp
    cases hp
  | cons idx rest ih =>
    intro unmatched h p hp
    rw [coverageGo] at h
    rcases hb : bidxOf idx with _ | b
    · rw [hb] at h; cases h
    · rw [hb] at h
      dsimp only at h
      by_cases hpb : p = b
      · simp [List.filterMap_cons, hb, hpb]
      · have : p ∈ unmatched.erase b := List.mem_erase_of_ne hpb |>.mpr hp
        have := ih _ h p this
        simp [List.filterMap_cons, hb, this]

theorem coverageGo_classifies (idxs : List SymExpr) :
    ∀ unmatched, coverageGo unmatched idxs = true →
      ∀ idx ∈ idxs, bidxOf idx ≠ none := by
  induction idxs with
  | nil => intro unmatched _ idx hidx; cases hidx
  | cons idx0 rest ih =>
    intro unmatched h idx hidx
    rw [coverageGo] at h
    rcases hb : bidxOf idx0 with _ | b
    · rw [hb] at h; cases h
    · rw [hb] at h
      dsimp only at h
      rcases List.mem_cons.mp hidx with h1 | h1


      · rw [h1, hb]; exact fun hc => by cases hc
      · exact ih _ h idx h1

theorem coverageCheck_coveredB (params : List String) (idxs : List SymExpr)
    (h : coverageCheck params idxs = true) : coveredB params idxs = true := by
  rw [coveredB, List.all_eq_true]
  intro p hp
  have := coverageGo_covers idxs params h p hp
  simpa using this

theorem coverageCheck_gap (params : List String) (idxs : List SymExpr) (p : String)
    (hp : p ∈ params) (hgap : p ∉ idxs.filterMap bidxOf) :
    coverageCheck params idxs = false := by
  rcases hcc : coverageCheck params idxs with _ | _
  · rfl
  · exact absurd (coverageGo_covers idxs params hcc p hp) hgap

theorem coverageCheck_badDim (params : List String) (idxs : List SymExpr) (idx : SymExpr)
    (hidx : idx ∈ idxs) (hb : bidxOf idx = none) :
    coverageCheck params idxs = false := by
  rcases hcc : coverageCheck params idxs with _ | _
  · rfl
  · exact absurd hb (coverageGo_classifies idxs params hcc idx hidx)

/-- An access that fails its element-count check or its per-dimension
classification/coverage check makes the whole per-array loop reject,
whatever the reference access and `stencil_found` are so far. -/
theorem inputAccessLoop_rejects (params : List String) (accs : List Subset) (a : Subset)
    (ha : a ∈ accs)
    (hfail : numElements a ≠ some 1 ∨ coverageCheck params (minElement a) = false) :
    ∀ first sf, inputAccessLoop params accs first sf = none := by
  induction accs with
  | nil => cases ha
  | cons hd rest ih =>
    intro first sf
    rw [inputAccessLoop.eq_def]
    dsimp only
    by_cases hne : numElements hd ≠ some 1
    · rw [if_pos hne]
    · rw [if_neg hne]
      rcases List.mem_cons.mp ha with h1 | h1
      · subst h1
        rcases hfail with h2 | h2
        · exact absurd h2 hne
        · cases first with
          | some fa =>
            dsimp only
            by_cases hnum : (List.zipWith subSimp (minElement a) (minElement fa)).all SymExpr.isNum
            · rw [if_pos hnum, h2, if_neg (by simp)]
            · rw [if_neg hnum]
          | none =>
            dsimp only
            rw [h2, if_neg (by simp)]
      · cases first with
        | some fa =>
          dsimp only
          by_cases hnum : (List.zipWith subSimp (minElement hd) (minElement fa)).all SymExpr.isNum
          · rw [if_pos hnum]
            by_cases hcov : coverageCheck params (minElement hd)
            · rw [if_pos hcov]
              exact ih h1 _ _
            · rw [if_neg hcov]
          · rw [if_neg hnum]
        | none =>
          dsimp only
          by_cases hcov : coverageCheck params (minElement hd)
          · rw [if_pos hcov]
            exact ih h1 _ _
          · rw [if_neg hcov]

/-- A failing group (non-scalar, non-singleton array or view) propagates a
rejection through the whole input loop. -/
theorem inputsLoop_rejects (arrays : String → Datadesc) (params : List String)
    (groups : List (String × List Subset)) (nm : String) (accs : List Subset)
    (sh : List SymExpr)
    (hg : (nm, accs) ∈ groups)
    (hdesc : arrays nm = .array sh ∨ arrays nm = .view sh)
    (hsh : sh ≠ [.num 1])
    (hfail : ∀ first sf, inputAccessLoop params accs first sf = none) :
    ∀ sf, inputsLoop arrays params groups sf = none := by
  induction groups with
  | nil => cases hg
  | cons g rest ih =>
    intro sf
    obtain ⟨nm2, accs2⟩ := g
    rw [inputsLoop]
    rcases List.mem_cons.mp hg with h1 | h1
    · obtain ⟨he1, he2⟩ := Prod.mk.injEq .. ▸ h1
      subst he1
      subst he2
      rcases hdesc with hd | hd
      · rw [hd]
        dsimp only
        rw [if_neg hsh, hfail none sf]
      · rw [hd]
        dsimp only
        rw [if_neg hsh, hfail none sf]
    · rcases hd2 : arrays nm2 with _ | sh2 | sh2 | _
      · dsimp only
        exact ih h1 sf
      · dsimp only
        by_cases hsh2 : sh2 = [SymExpr.num 1]
        · rw [if_pos hsh2]
          exact ih h1 sf
        · rw [if_neg hsh2]
          rcases hacc : inputAccessLoop params accs2 none sf with _ | sf2
          · rfl
          · exact ih h1 sf2
      · dsimp only
        by_cases hsh2 : sh2 = [SymExpr.num 1]
        · rw [if_pos hsh2]
          exact ih h1 sf
        · rw [if_neg hsh2]
          rcases hacc : inputAccessLoop params accs2 none sf with _ | sf2
          · rfl
          · exact ih h1 sf2
      · rfl

/-- An input-loop rejection is a `False` verdict of `can_be_applied` (the
input loop runs before the output phase and cannot raise). -/
theorem canBeApplied_inputReject (st : MatchState) (strict : Bool)
    (h : ∀ sf, inputsLoop st.arrays st.params (groupInputs st.entryOutEdges) sf = none) :
    canBeApplied st strict = .ok false := by
  rw [canBeApplied]
  by_cases hc : st.scopeNodeCount > 3
  · rw [if_pos hc]
  · rw [if_neg hc, canBeAppliedFromGroups, h false]

/-- Forward direction: a completed per-array input loop means every access
passed the single-element and classification/coverage checks. -/
theorem inputAccessLoop_passes (params : List String) (accs : List Subset) :
    ∀ first sf b, inputAccessLoop params accs first sf = some b →
      ∀ a ∈ accs, numElements a = some 1 ∧ coverageCheck params (minElement a) = true := by
  induction accs with
  | nil => intro first sf b _ a ha; cases ha
  | cons hd rest ih =>
    intro first sf b h a ha
    rw [inputAccessLoop.eq_def] at h
    dsimp only at h
    by_cases hne : numElements hd ≠ some 1
    · rw [if_pos hne] at h; cases h
    · rw [if_neg hne] at h
      rw [not_not] at hne
      cases first with
      | some fa =>
        dsimp only at h
        by_cases hnum : (List.zipWith subSimp (minElement hd) (minElement fa)).all SymExpr.isNum
        · rw [if_pos hnum] at h
          by_cases hcov : coverageCheck params (minElement hd)
          · rw [if_pos hcov] at h
            rcases List.mem_cons.mp ha with h1 | h1
            · subst h1; exact ⟨hne, hcov⟩
            · exact ih _ _ _ h a h1
          · rw [if_neg hcov] at h; cases h
        · rw [if_neg hnum] at h; cases h
      | none =>
        dsimp only at h
        by_cases hcov : coverageCheck params (minElement hd)
        · rw [if_pos hcov] at h
          rcases List.mem_cons.mp ha with h1 | h1
          · subst h1; exact ⟨hne, hcov⟩
          · exact ih _ _ _ h a h1
        · rw [if_neg hcov] at h; cases h

/-- Forward direction over groups: a completed input loop means all accesses
of every non-skipped array/view group passed their checks. -/
theorem inputsLoop_passes (arrays : String → Datadesc) (params : List String)
    (groups : List (String × List Subset)) :
    ∀ sf b, inputsLoop arrays params groups sf = some b →
      ∀ nm accs sh, (nm, accs) ∈ groups →
        (arrays nm = .array sh ∨ arrays nm = .view sh) → sh ≠ [.num 1] →
        ∀ a ∈ accs, numElements a = some 1 ∧ coverageCheck params (minElement a) = true := by
  induction groups with
  | nil => intro sf b _ nm accs sh hg; cases hg
  | cons g rest ih =>
    intro sf b h nm accs sh hg hdesc hsh a ha
    obtain ⟨nm2, accs2⟩ := g
    rw [inputsLoop] at h
    rcases List.mem_cons.mp hg with h1 | h1
    · obtain ⟨he1, he2⟩ := Prod.mk.injEq .. ▸ h1
      subst he1
      subst he2
      rcases hdesc with hd | hd <;> rw [hd] at h <;> dsimp only at h <;> rw [if_neg hsh] at h <;>
        [skip; skip] <;>
        (rcases hacc : inputAccessLoop params accs none sf with _ | sf2
         · rw [hacc] at h; cases h
         · rw [hacc] at h
           exact inputAccessLoop_passes params accs none sf sf2 hacc a ha)
    · rcases hd2 : arrays nm2 with _ | sh2 | sh2 | _ <;> rw [hd2] at h <;> dsimp only at h
      · exact ih _ _ h nm accs sh h1 hdesc hsh a ha
      · by_cases hsh2 : sh2 = [SymExpr.num 1]
        · rw [if_pos hsh2] at h
          exact ih _ _ h nm accs sh h1 hdesc hsh a ha
        · rw [if_neg hsh2] at h
          rcases hacc : inputAccessLoop params accs2 none sf with _ | sf2
          · rw [hacc] at h; cases h
          · rw [hacc] at h
            exact ih _ _ h nm accs sh h1 hdesc hsh a ha
      · by_cases hsh2 : sh2 = [SymExpr.num 1]
        · rw [if_pos hsh2] at h
          exact ih _ _ h nm accs sh h1 hdesc hsh a ha
        · rw [if_neg hsh2] at h
          rcases hacc : inputAccessLoop params accs2 none sf with _ | sf2
          · rw [hacc] at h; cases h
          · rw [hacc] at h
            exact ih _ _ h nm accs sh h1 hdesc hsh a ha
      · cases h

/-- Forward direction: accepted output accesses have at most one element and
pass classification/coverage. -/
theorem outputAccessLoop_passes (params : List String) (accs : List Subset)
    (h : outputAccessLoop params accs = .ok true) :
    ∀ a ∈ accs, (∃ k, numElements a = some k ∧ k ≤ 1) ∧
      coverageCheck params (minElement a) = true := by
  induction accs with
  | nil => intro a ha; cases ha
  | cons hd rest ih =>
    intro a ha
    rw [outputAccessLoop] at h
    rcases hne : numElements hd with _ | k
    · rw [hne] at h; cases h
    · rw [hne] at h
      dsimp only at h
      by_cases hk : k > 1
      · rw [if_pos hk] at h; simp at h
      · rw [if_neg hk] at h
        by_cases hcov : coverageCheck params (minElement hd)
        · rw [if_pos hcov] at h
          rcases List.mem_cons.mp ha with h1 | h1
          · subst h1; exact ⟨⟨k, hne, by omega⟩, hcov⟩
          · exact ih h a h1
        · rw [if_neg hcov] at h; simp at h

/-- Forward direction over output groups: every group passed the descriptor
test and its access loop. -/
theorem outputsLoop_passes (arrays : String → Datadesc) (params : List String)
    (og : List (String × List Subset)) :
    outputsLoop arrays params og = .ok true →
      ∀ nm accs, (nm, accs) ∈ og →
        (∃ sh, arrays nm = .array sh ∨ arrays nm = .view sh) ∧
        outputAccessLoop params accs = .ok true := by
  induction og with
  | nil => intro _ nm accs hg; cases hg
  | cons g rest ih =>
    intro h nm accs hg
    obtain ⟨nm2, accs2⟩ := g
    rw [outputsLoop] at h
    rcases hd2 : arrays nm2 with _ | sh2 | sh2 | _ <;> rw [hd2] at h <;> dsimp only at h
    · simp at h
    · rcases ha2 : outputAccessLoop params accs2 with e | b2
      · rw [ha2] at h; cases h
      · rcases b2 with _ | _
        · rw [ha2] at h; simp at h
        · rw [ha2] at h
          rcases List.mem_cons.mp hg with h1 | h1
          · obtain ⟨he1, he2⟩ := Prod.mk.injEq .. ▸ h1
            subst he1; subst he2
            exact ⟨⟨sh2, Or.inl hd2⟩, ha2⟩
          · exact ih h nm accs h1
    · rcases ha2 : outputAccessLoop params accs2 with e | b2
      · rw [ha2] at h; cases h
      · rcases b2 with _ | _
        · rw [ha2] at h; simp at h
        · rw [ha2] at h
          rcases List.mem_cons.mp hg with h1 | h1
          · obtain ⟨he1, he2⟩ := Prod.mk.injEq .. ▸ h1
            subst he1; subst he2
            exact ⟨⟨sh2, Or.inr hd2⟩, ha2⟩
          · exact ih h nm accs h1
    · simp at h

/-! ## Claim theorems C3, C4, C8, C10 -/

/-- Input accesses `B[2*i]`, `B[i]`: the first classified dimension is a
product. -/
def stMul2 : MatchState :=
  MatchState.mk 3 ["i"]
    [Memlet.mk (some "B") (.indices [.mul (.num 2) (.sym "i")]) false,
     Memlet.mk (some "B") (.indices [.sym "i"]) false]
    outEdgesA arrA

/-- Output access `A[2*i]` with the baseline stencil inputs. -/
def stOutMul2 : MatchState :=
  MatchState.mk 3 ["i"] inEdgesB
    [Memlet.mk (some "A") (.indices [.mul (.num 2) (.sym "i")]) false]
    arrA

/-- C3: a checked dimension classifies successfully exactly when it is one
bare symbol or an `Add` with exactly one free symbol (any additive constant
allowed); a failing classification on a scanned input access forces the
verdict `False` (not an exception), and concretely the input `B[2*i]` and the
output `A[2*i]` candidates are both rejected with `False`. -/
theorem stencil_C3 :
    (∀ (ex : SymExpr) (s : String),
      bidxOf ex = some s ↔ ex = .sym s ∨ (SymExpr.isAdd ex = true ∧ freeSymsList ex = [s])) ∧
    (∀ (st : MatchState) (strict : Bool) (nm : String) (accs : List Subset) (sh : List SymExpr)
      (a : Subset) (idx : SymExpr),
      (nm, accs) ∈ groupInputs st.entryOutEdges →
      (st.arrays nm = .array sh ∨ st.arrays nm = .view sh) → sh ≠ [.num 1] →
      a ∈ accs → idx ∈ minElement a → bidxOf idx = none →
      canBeApplied st strict = .ok false) ∧
    canBeApplied stMul2 false = .ok false ∧
    canBeApplied stOutMul2 false = .ok false := by
  refine ⟨?_, ?_, by decide, by decide⟩
  · intro ex s
    cases ex with
    | num n => simp [bidxOf, SymExpr.isAdd]
    | sym t => simp [bidxOf, SymExpr.isAdd]
    | add a b =>
      simp only [bidxOf, SymExpr.isAdd]
      rcases hfs : freeSymsList (.add a b) with _ | ⟨t, _ | ⟨u, r⟩⟩ <;>
        simp only [hfs] <;> simp
    | mul a b => simp [bidxOf, SymExpr.isAdd]
    | pow a k => simp [bidxOf, SymExpr.isAdd]
  · intro st strict nm accs sh a idx hg hdesc hsh ha hidx hb
    refine canBeApplied_inputReject st strict ?_
    intro sf
    exact inputsLoop_rejects st.arrays st.params _ nm accs sh hg hdesc hsh
      (inputAccessLoop_rejects st.params accs a ha
        (Or.inr (coverageCheck_badDim st.params (minElement a) idx hidx hb))) sf

/-- Witness for C3: the product `2*i` classifies as none, and applying the
rejection component at the concrete `B[2*i]` candidate yields `False`. -/
theorem stencil_C3_witness :
    bidxOf (.mul (.num 2) (.sym "i")) = none ∧ canBeApplied stMul2 false = .ok false :=
  ⟨by decide,
   stencil_C3.2.1 stMul2 false "B"
     [.indices [.mul (.num 2) (.sym "i")], .indices [.sym "i"]] [.sym "N"]
     (.indices [.mul (.num 2) (.sym "i")]) (.mul (.num 2) (.sym "i"))
     (by decide) (Or.inl (by decide)) (by decide) (by decide) (by decide) (by decide)⟩

/-- Input access `B[i]` under a 2-parameter map `[i, j]`: the access leaves
`j` unreferenced. -/
def stGap : MatchState :=
  MatchState.mk 3 ["i", "j"]
    [Memlet.mk (some "B") (.indices [.sym "i"]) false]
    outEdgesA arrA

/-- C4: (1) on an accepted candidate every checked access (input of a
non-skipped array/view group, and every gathered output access) references
every iteration parameter of the scope; (2) an input access that leaves some
scope parameter unreferenced forces the verdict `False`. -/
theorem stencil_C4 :
    (∀ (st : MatchState) (strict : Bool),
      canBeApplied st strict = .ok true →
      (∀ nm accs sh a, (nm, accs) ∈ groupInputs st.entryOutEdges →
        (st.arrays nm = .array sh ∨ st.arrays nm = .view sh) → sh ≠ [.num 1] → a ∈ accs →
        coveredB st.params (minElement a) = true) ∧
      (∀ og nm accs a, gatherOutputs st.exitInEdges = .ok (some og) → (nm, accs) ∈ og →
        a ∈ accs → coveredB st.params (minElement a) = true)) ∧
    (∀ (st : MatchState) (strict : Bool) (nm : String) (accs : List Subset) (sh : List SymExpr)
      (a : Subset) (p : String),
      (nm, accs) ∈ groupInputs st.entryOutEdges →
      (st.arrays nm = .array sh ∨ st.arrays nm = .view sh) → sh ≠ [.num 1] →
      a ∈ accs → p ∈ st.params → p ∉ (minElement a).filterMap bidxOf →
      canBeApplied st strict = .ok false) := by
  constructor
  · intro st strict h
    obtain ⟨-, hin, og0, hg0, ho0⟩ := canBeApplied_ok_true st strict h
    constructor
    · intro nm accs sh a hg hdesc hsh ha
      exact coverageCheck_coveredB _ _
        (inputsLoop_passes st.arrays st.params _ false true hin nm accs sh hg hdesc hsh a ha).2
    · intro og nm accs a hg hmem ha
      rw [hg0] at hg
      simp only [Except.ok.injEq, Option.some.injEq] at hg
      subst hg
      exact coverageCheck_coveredB _ _
        ((outputAccessLoop_passes st.params accs
          (outputsLoop_passes st.arrays st.params og0 ho0 nm accs hmem).2) a ha).2
  · intro st strict nm accs sh a p hg hdesc hsh ha hp hgap
    refine canBeApplied_inputReject st strict ?_
    intro sf
    exact inputsLoop_rejects st.arrays st.params _ nm accs sh hg hdesc hsh
      (inputAccessLoop_rejects st.params accs a ha
        (Or.inr (coverageCheck_gap st.params (minElement a) p hp hgap))) sf

/-- Witness for C4: the coverage facts extracted from the accepted baseline
candidate, and the rejection of the `j`-uncovered access. -/
theorem stencil_C4_witness :
    coveredB stBase.params (minElement (.indices [.sym "i"])) = true ∧
    canBeApplied stGap false = .ok false :=
  ⟨(stencil_C4.1 stBase false (by decide)).1 "B"
     [.indices [.sym "i"], .indices [.add (.num 1) (.sym "i")]] [.sym "N"]
     (.indices [.sym "i"]) (by decide) (Or.inl (by decide)) (by decide) (by decide),
   stencil_C4.2 stGap false "B" [.indices [.sym "i"]] [.sym "N"] (.indices [.sym "i"]) "j"
     (by decide) (Or.inl (by decide)) (by decide) (by decide) (by decide) (by decide)⟩

/-- C8: the `strict` flag is accepted but never read; the verdict is the same
function of the remaining arguments for both values. -/
theorem stencil_C8 : ∀ (st : MatchState), canBeApplied st true = canBeApplied st false :=
  fun _ => rfl

/-- Output access `A[i : i-2]`, covering zero elements. -/
def stZeroOut : MatchState :=
  MatchState.mk 3 ["i"] inEdgesB
    [Memlet.mk (some "A") (.range [(.sym "i", .add (.num (-2)) (.sym "i"))]) false]
    arrA

/-- Input access `B[i : i-2]` (zero elements) next to the baseline inputs. -/
def stZeroIn : MatchState :=
  MatchState.mk 3 ["i"]
    (Memlet.mk (some "B") (.range [(.sym "i", .add (.num (-2)) (.sym "i"))]) false :: inEdgesB)
    outEdgesA arrA

/-- C10: the element-count checks are asymmetric.  Any scanned input access
whose element count is not exactly one (zero, more than one, or symbolic)
forces `False`; an output access covering zero elements passes the size
check — concretely, the candidate `stZeroOut` whose only output access covers
zero elements is accepted. -/
theorem stencil_C10 :
    (∀ (st : MatchState) (strict : Bool) (nm : String) (accs : List Subset) (sh : List SymExpr)
      (a : Subset),
      (nm, accs) ∈ groupInputs st.entryOutEdges →
      (st.arrays nm = .array sh ∨ st.arrays nm = .view sh) → sh ≠ [.num 1] →
      a ∈ accs → numElements a ≠ some 1 →
      canBeApplied st strict = .ok false) ∧
    (numElements (Subset.range [(.sym "i", .add (.num (-2)) (.sym "i"))]) = some 0 ∧
     canBeApplied stZeroOut false = .ok true) := by
  refine ⟨?_, by decide, by decide⟩
  intro st strict nm accs sh a hg hdesc hsh ha hne
  refine canBeApplied_inputReject st strict ?_
  intro sf
  exact inputsLoop_rejects st.arrays st.params _ nm accs sh hg hdesc hsh
    (inputAccessLoop_rejects st.params accs a ha (Or.inl hne)) sf

/-- Witness for C10: the zero-element input access rejects the candidate. -/
theorem stencil_C10_witness :
    canBeApplied stZeroIn false = .ok false :=
  stencil_C10.1 stZeroIn false "B"
    [.range [(.sym "i", .add (.num (-2)) (.sym "i"))], .indices [.sym "i"],
     .indices [.add (.num 1) (.sym "i")]] [.sym "N"]
    (.range [(.sym "i", .add (.num (-2)) (.sym "i"))])
    (by decide) (Or.inl (by decide)) (by decide) (by decide) (by decide)

/-! ## Claim C5: skipping of singleton arrays -/

/-- A group whose descriptor is an array or view of shape exactly `[1]` is
skipped by the input loop: its accesses do not influence the loop at all. -/
theorem inputsLoop_skip (arrays : String → Datadesc) (params : List String) (nm : String)
    (accs : List Subset)
    (hdesc : arrays nm = .array [.num 1] ∨ arrays nm = .view [.num 1]) :
    ∀ g1 g2 sf, inputsLoop arrays params (g1 ++ (nm, accs) :: g2) sf =
      inputsLoop arrays params (g1 ++ g2) sf := by
  intro g1
  induction g1 with
  | nil =>
    intro g2 sf
    rw [List.nil_append, List.nil_append, inputsLoop]
    rcases hdesc with hd | hd <;> rw [hd] <;> dsimp only <;> rw [if_pos rfl]
  | cons g rest ih =>
    intro g2 sf
    obtain ⟨nm2, accs2⟩ := g
    rw [List.cons_append, inputsLoop, List.cons_append, inputsLoop]
    rcases hd2 : arrays nm2 with _ | sh2 | sh2 | _ <;> dsimp only
    · exact ih g2 sf
    · by_cases hsh2 : sh2 = [SymExpr.num 1]
      · rw [if_pos hsh2, if_pos hsh2]
        exact ih g2 sf
      · rw [if_neg hsh2, if_neg hsh2]
        rcases hacc : inputAccessLoop params accs2 none sf with _ | sf2
        · rfl
        · exact ih g2 sf2
    · by_cases hsh2 : sh2 = [SymExpr.num 1]
      · rw [if_pos hsh2, if_pos hsh2]
        exact ih g2 sf
      · rw [if_neg hsh2, if_neg hsh2]
        rcases hacc : inputAccessLoop params accs2 none sf with _ | sf2
        · rfl
        · exact ih g2 sf2

/-- C5 (amended: the skip applies exactly to shape `[1]`): an input array or
view of shape `[1]` is skipped entirely — the eligibility verdict does not
depend on its accesses, which undergo no check and can neither reject the
candidate nor set `stencil_found`. -/
theorem stencil_C5 (arrays : String → Datadesc) (params : List String) (outs : List Memlet)
    (g1 g2 : List (String × List Subset)) (nm : String) (accs : List Subset)
    (hdesc : arrays nm = .array [.num 1] ∨ arrays nm = .view [.num 1]) :
    canBeAppliedFromGroups arrays params (g1 ++ (nm, accs) :: g2) outs =
    canBeAppliedFromGroups arrays params (g1 ++ g2) outs := by
  rw [canBeAppliedFromGroups, canBeAppliedFromGroups,
    inputsLoop_skip arrays params nm accs hdesc g1 g2 false]

/-- `C` is a 1-D singleton array. -/
def arrC1 (nm : String) : Datadesc :=
  if nm = "C" then .array [.num 1] else arrA nm

/-- Witness for C5: dropping the singleton group `C` does not change the
verdict on the baseline candidate extended with a `C[0]` access. -/
theorem stencil_C5_witness :
    canBeAppliedFromGroups arrC1 ["i"]
      ([] ++ ("C", [Subset.indices [SymExpr.num 0]]) :: groupInputs inEdgesB) outEdgesA =
    canBeAppliedFromGroups arrC1 ["i"] ([] ++ groupInputs inEdgesB) outEdgesA :=
  stencil_C5 arrC1 ["i"] outEdgesA [] (groupInputs inEdgesB) "C"
    [Subset.indices [SymExpr.num 0]] (Or.inl (by decide))

/-- `C` has shape `[1, 1]`: one element in every dimension, but not `[1]`. -/
def arrC11 (nm : String) : Datadesc :=
  if nm = "C" then .array [.num 1, .num 1] else arrA nm

/-- Baseline stencil plus an input access `C[0, 0]` to the `[1, 1]` array. -/
def stC11 : MatchState :=
  MatchState.mk 3 ["i"]
    (Memlet.mk (some "C") (.indices [.num 0, .num 0]) false :: inEdgesB)
    outEdgesA arrC11

/-- The same candidate without the `C` access. -/
def stC11Minus : MatchState :=
  MatchState.mk 3 ["i"] inEdgesB outEdgesA arrC11

/-- Counterexample to C5 as stated: the array `C` of shape `[1, 1]` has one
element in every dimension, yet it is not skipped — its `C[0, 0]` access is
checked, fails the index classification and flips the verdict from `True` to
`False`. -/
theorem stencil_C5_counterexample :
    canBeApplied stC11 false = .ok false ∧ canBeApplied stC11Minus false = .ok true := by
  constructor
  · decide
  · decide

/-! ## Claim C6: totality and the two escaping exceptions -/

theorem gatherOutputsGo_total (edges : List Memlet)
    (hdata : ∀ m ∈ edges, m.data ≠ none) :
    ∀ acc, ∃ r, gatherOutputsGo acc edges = .ok r := by
  induction edges with
  | nil => intro acc; exact ⟨some acc, rfl⟩
  | cons m rest ih =>
    intro acc
    rw [gatherOutputsGo]
    by_cases hw : m.wcr
    · rw [if_pos hw]
      exact ⟨none, rfl⟩
    · rw [if_neg hw]
      rcases hd : m.data with _ | nm
      · exact absurd hd (hdata m (List.mem_cons_self m rest))
      · exact ih (fun m2 hm2 => hdata m2 (List.mem_cons_of_mem m hm2)) _

theorem groupInsert_mem (nm2 : String) (sub : Subset) (acc : List (String × List Subset)) :
    ∀ nm accs, (nm, accs) ∈ groupInsert nm2 sub acc → ∀ a ∈ accs,
      (∃ accs0, (nm, accs0) ∈ acc ∧ a ∈ accs0) ∨ a = sub := by
  induction acc with
  | nil =>
    intro nm accs hmem a ha
    rw [groupInsert] at hmem
    rcases List.mem_singleton.mp hmem with h1
    obtain ⟨he1, he2⟩ := Prod.mk.injEq .. ▸ h1
    subst he1; subst he2
    exact Or.inr (List.mem_singleton.mp ha)
  | cons g rest ih =>
    intro nm accs hmem a ha
    obtain ⟨k, l⟩ := g
    rw [groupInsert] at hmem
    by_cases hk : k = nm2
    · rw [if_pos hk] at hmem
      rcases List.mem_cons.mp hmem with h1 | h1
      · obtain ⟨he1, he2⟩ := Prod.mk.injEq .. ▸ h1
        subst he1; subst he2
        rcases List.mem_append.mp ha with h2 | h2
        · exact Or.inl ⟨l, List.mem_cons_self _ _, h2⟩
        · exact Or.inr (List.mem_singleton.mp h2)
      · exact Or.inl ⟨accs, List.mem_cons_of_mem _ h1, ha⟩
    · rw [if_neg hk] at hmem
      rcases List.mem_cons.mp hmem with h1 | h1
      · obtain ⟨he1, he2⟩ := Prod.mk.injEq .. ▸ h1
        subst he1; subst he2
        exact Or.inl ⟨accs, List.mem_cons_self _ _, ha⟩
      · rcases ih nm accs h1 a ha with h2 | h2
        · obtain ⟨accs0, hmem0, ha0⟩ := h2
          exact Or.inl ⟨accs0, List.mem_cons_of_mem _ hmem0, ha0⟩
        · exact Or.inr h2

theorem gatherOutputsGo_mem (edges : List Memlet) :
    ∀ acc og, gatherOutputsGo acc edges = .ok (some og) →
      ∀ nm accs, (nm, accs) ∈ og → ∀ a ∈ accs,
        (∃ accs0, (nm, accs0) ∈ acc ∧ a ∈ accs0) ∨ ∃ m ∈ edges, m.subset = a := by
  induction edges with
  | nil =>
    intro acc og h nm accs hmem a ha
    rw [gatherOutputsGo] at h
    simp only [Except.ok.injEq, Option.some.injEq] at h
    subst h
    exact Or.inl ⟨accs, hmem, ha⟩
  | cons m rest ih =>
    intro acc og h nm accs hmem a ha
    rw [gatherOutputsGo] at h
    by_cases hw : m.wcr
    · rw [if_pos hw] at h; simp at h
    · rw [if_neg hw] at h
      rcases hd : m.data with _ | nm2
      · rw [hd] at h; cases h
      · rw [hd] at h
        dsimp only at h
        rcases ih _ _ h nm accs hmem a ha with h2 | h2
        · rcases h2 with ⟨accs0, hmem0, ha0⟩
          rcases groupInsert_mem nm2 m.subset acc nm accs0 hmem0 a ha0 with h3 | h3
          · exact Or.inl h3
          · exact Or.inr ⟨m, List.mem_cons_self m rest, h3.symm⟩
        · obtain ⟨m2, hm2, he⟩ := h2
          exact Or.inr ⟨m2, List.mem_cons_of_mem m hm2, he⟩

theorem outputAccessLoop_total (params : List String) (accs : List Subset)
    (hsz : ∀ a ∈ accs, numElements a ≠ none) :
    ∃ b, outputAccessLoop params accs = .ok b := by
  induction accs with
  | nil => exact ⟨true, rfl⟩
  | cons hd rest ih =>
    rw [outputAccessLoop]
    rcases hne : numElements hd with _ | k
    · exact absurd hne (hsz hd (List.mem_cons_self hd rest))
    · dsimp only
      by_cases hk : k > 1
      · rw [if_pos hk]
        exact ⟨false, rfl⟩
      · rw [if_neg hk]
        by_cases hcov : coverageCheck params (minElement hd)
        · rw [if_pos hcov]
          exact ih (fun a ha => hsz a (List.mem_cons_of_mem hd ha))
        · rw [if_neg hcov]
          exact ⟨false, rfl⟩

theorem outputsLoop_total (arrays : String → Datadesc) (params : List String)
    (og : List (String × List Subset))
    (hsz : ∀ nm accs, (nm, accs) ∈ og → ∀ a ∈ accs, numElements a ≠ none) :
    ∃ b, outputsLoop arrays params og = .ok b := by
  induction og with
  | nil => exact ⟨true, rfl⟩
  | cons g rest ih =>
    obtain ⟨nm2, accs2⟩ := g
    rw [outputsLoop]
    have ihr := ih (fun nm accs hmem a ha => hsz nm accs (List.mem_cons_of_mem _ hmem) a ha)
    rcases hd2 : arrays nm2 with _ | sh2 | sh2 | _ <;> dsimp only
    · exact ⟨false, rfl⟩
    · obtain ⟨b2, hb2⟩ := outputAccessLoop_total params accs2
        (hsz nm2 accs2 (List.mem_cons_self _ _))
      rw [hb2]
      rcases b2 with _ | _
      · exact ⟨false, rfl⟩
      · exact ihr
    · obtain ⟨b2, hb2⟩ := outputAccessLoop_total params accs2
        (hsz nm2 accs2 (List.mem_cons_self _ _))
      rw [hb2]
      rcases b2 with _ | _
      · exact ⟨false, rfl⟩
      · exact ihr
    · exact ⟨false, rfl⟩

/-- C6 (amended): when every edge entering the map exit carries a non-empty
memlet whose subset has a literal element count, `can_be_applied` terminates
with a boolean verdict (the input loop and all rejection paths are
exception-free).  The counterexample theorem shows the two hypotheses are
necessary: an empty output memlet raises `KeyError` and a symbolic output
element count raises `TypeError`. -/
theorem stencil_C6 (st : MatchState) (strict : Bool)
    (hdata : ∀ m ∈ st.exitInEdges, m.data ≠ none)
    (hsz : ∀ m ∈ st.exitInEdges, numElements m.subset ≠ none) :
    ∃ b, canBeApplied st strict = .ok b := by
  rw [canBeApplied]
  by_cases hc : st.scopeNodeCount > 3
  · rw [if_pos hc]
    exact ⟨false, rfl⟩
  · rw [if_neg hc, canBeAppliedFromGroups]
    rcases hin : inputsLoop st.arrays st.params (groupInputs st.entryOutEdges) false with _ | sf
    · exact ⟨false, rfl⟩
    · dsimp only
      obtain ⟨r, hr⟩ := gatherOutputsGo_total st.exitInEdges hdata []
      rw [show gatherOutputs st.exitInEdges = gatherOutputsGo [] st.exitInEdges from rfl, hr]
      rcases r with _ | og
      · exact ⟨false, rfl⟩
      · dsimp only
        have hszog : ∀ nm accs, (nm, accs) ∈ og → ∀ a ∈ accs, numElements a ≠ none := by
          intro nm accs hmem a ha
          rcases gatherOutputsGo_mem st.exitInEdges [] og hr nm accs hmem a ha with h2 | h2
          · obtain ⟨accs0, hmem0, -⟩ := h2
            cases hmem0
          · obtain ⟨m, hm, he⟩ := h2
            rw [← he]
            exact hsz m hm
        obtain ⟨b2, hb2⟩ := outputsLoop_total st.arrays st.params og hszog
        rw [hb2]
        rcases b2 with _ | _
        · exact ⟨false, rfl⟩
        · exact ⟨sf, rfl⟩

/-- Witness for C6 at the baseline candidate. -/
theorem stencil_C6_witness : ∃ b, canBeApplied stBase false = .ok b :=
  stencil_C6 stBase false (by decide) (by decide)

/-- An empty memlet entering the map exit. -/
def stKeyErr : MatchState :=
  MatchState.mk 3 ["i"] inEdgesB [Memlet.mk none (.indices [.sym "i"]) false] arrA

/-- An output access `A[0 : N]` whose element count is symbolic. -/
def stTypeErr : MatchState :=
  MatchState.mk 3 ["i"] inEdgesB
    [Memlet.mk (some "A") (.range [(.num 0, .sym "N")]) false] arrA

/-- Counterexample to C6 as stated: `can_be_applied` is not exception-free.
An empty output memlet reaches `sdfg.arrays[None]` (`KeyError`), and a
symbolic output element count makes `num_elements() > 1` an unevaluated
relational whose truth test raises `TypeError`. -/
theorem stencil_C6_counterexample :
    canBeApplied stKeyErr false = .error .keyError ∧
    canBeApplied stTypeErr false = .error .typeError := by
  constructor
  · decide
  · decide

/-! ## Claim C7: the single-point assertion in `apply` -/

theorem collectDims_ok (p : String) (lo : SymExpr) (dims : List (SymExpr × SymExpr))
    (h : ∀ d ∈ dims, d.1 = d.2) :
    ∃ vals, collectDims p lo dims = .ok vals := by
  induction dims with
  | nil => exact ⟨[], rfl⟩
  | cons d rest ih =>
    obtain ⟨b, e⟩ := d
    rw [collectDims]
    have hbe : b = e := h (b, e) (List.mem_cons_self _ _)
    rw [if_neg (not_not_intro hbe)]
    obtain ⟨vals, hv⟩ := ih (fun d2 hd2 => h d2 (List.mem_cons_of_mem _ hd2))
    rw [hv]
    dsimp only
    by_cases hp : p ∈ freeSymsList b
    · rw [if_pos hp]
      exact ⟨_, rfl⟩
    · rw [if_neg hp]
      exact ⟨vals, rfl⟩

theorem collectVals_ok (p : String) (lo : SymExpr) (subs : List Subset)
    (h : ∀ dims, Subset.range dims ∈ subs → ∀ d ∈ dims, d.1 = d.2) :
    ∃ vals, collectVals p lo subs = .ok vals := by
  induction subs with
  | nil => exact ⟨[], rfl⟩
  | cons s rest ih =>
    have ihr := ih (fun dims hmem d hd => h dims (List.mem_cons_of_mem _ hmem) d hd)
    obtain ⟨vals2, hv2⟩ := ihr
    cases s with
    | range dims =>
      rw [collectVals]
      obtain ⟨vals, hv⟩ := collectDims_ok p lo dims (h dims (List.mem_cons_self _ _))
      rw [hv, hv2]
      exact ⟨_, rfl⟩
    | indices idxs =>
      rw [collectVals, hv2]
      exact ⟨_, rfl⟩

theorem deriveOffsetsGo_ok (tOut : List Subset)
    (h : ∀ dims, Subset.range dims ∈ tOut → ∀ d ∈ dims, d.1 = d.2) :
    ∀ pl, ∃ offs, deriveOffsetsGo tOut pl = .ok offs := by
  intro pl
  induction pl with
  | nil => exact ⟨[], rfl⟩
  | cons t rest ih =>
    obtain ⟨p, lo⟩ := t
    rw [deriveOffsetsGo]
    obtain ⟨vals, hv⟩ := collectVals_ok p lo tOut h
    obtain ⟨offs, ho⟩ := ih
    rw [hv, ho]
    exact ⟨_, rfl⟩

/-- C7 (amended): the offset-derivation assertion `rng[0] == rng[1]` succeeds
precisely on output subsets whose `Range` dimensions all have structurally
equal bounds; under that condition the derivation never aborts.  The
counterexample theorem shows the eligibility size check does not establish
this condition: a zero-element output range passes `can_be_applied`, yet its
bounds differ and the assertion fires. -/
theorem stencil_C7 (ctx : ApplyCtx)
    (h : ∀ dims, Subset.range dims ∈ ctx.taskOutSubsets → ∀ d ∈ dims, d.1 = d.2) :
    ∃ offs, deriveOffsets ctx = .ok offs :=
  deriveOffsetsGo_ok ctx.taskOutSubsets h (ctx.params.zip ctx.lowers)

/-- Witness for C7 on a single-point output range. -/
theorem stencil_C7_witness :
    ∃ offs, deriveOffsets (ApplyCtx.mk ["i"] [.num 0] [.range [(.sym "i", .sym "i")]]) = .ok offs :=
  stencil_C7 (ApplyCtx.mk ["i"] [.num 0] [.range [(.sym "i", .sym "i")]]) (by
    intro dims hmem d hd
    have h1 : Subset.range dims = Subset.range [(SymExpr.sym "i", SymExpr.sym "i")] := by
      simpa using hmem
    injection h1 with h2
    subst h2
    have h3 : d = (SymExpr.sym "i", SymExpr.sym "i") := by simpa using hd
    subst h3
    rfl)

/-- Output access `A[i : i-1]`: zero elements, accepted by the analyzer. -/
def stC7 : MatchState :=
  MatchState.mk 3 ["i"] inEdgesB
    [Memlet.mk (some "A") (.range [(.sym "i", .add (.num (-1)) (.sym "i"))]) false] arrA

/-- Counterexample to C7 as stated: a binding accepted by `can_be_applied`
(the output `Range` `A[i : i-1]` covers zero elements, so the `> 1` size
check passes) still aborts the offset derivation with `AssertionError`,
because its bounds are not equal. -/
theorem stencil_C7_counterexample :
    canBeApplied stC7 false = .ok true ∧
    deriveOffsets (ApplyCtx.mk ["i"] [.num 0]
      [.range [(.sym "i", .add (.num (-1)) (.sym "i"))]]) = .error .assertionError := by
  constructor
  · decide
  · decide

/-! ## Claim C2: offset derivation and the zero-based rewrite -/

theorem collectDims_spec (p : String) (lo : SymExpr) (dims : List (SymExpr × SymExpr)) :
    ∀ vals, collectDims p lo dims = .ok vals →
      vals = (dims.map (fun t => t.1)).filterMap
        (fun ex => if p ∈ freeSymsList ex then toIntOpt (substSimp ex p lo) else none) := by
  induction dims with
  | nil =>
    intro vals h
    rw [collectDims] at h
    simp only [Except.ok.injEq] at h
    rw [← h]
    rfl
  | cons t rest ih =>
    intro vals h
    obtain ⟨b, e⟩ := t
    rw [collectDims] at h
    by_cases hbe : b ≠ e
    · rw [if_pos hbe] at h; cases h
    · rw [if_neg hbe] at h
      rcases hr : collectDims p lo rest with err | vals2
      · rw [hr] at h; cases h
      · rw [hr] at h
        dsimp only at h
        rw [List.map_cons, List.filterMap_cons]
        by_cases hp : p ∈ freeSymsList b
        · rw [if_pos hp] at h
          simp only [Except.ok.injEq] at h
          rw [← h, if_pos hp, ih vals2 hr]
          rcases toIntOpt (substSimp b p lo) with _ | v
          · rfl
          · rfl
        · rw [if_neg hp] at h
          simp only [Except.ok.injEq] at h
          rw [← h, if_neg hp, ih vals2 hr]

theorem collectIdxs_spec (p : String) (lo : SymExpr) (idxs : List SymExpr) :
    collectIdxs p lo idxs = idxs.filterMap
      (fun ex => if p ∈ freeSymsList ex then toIntOpt (substSimp ex p lo) else none) := by
  induction idxs with
  | nil => rfl
  | cons idx rest ih =>
    rw [collectIdxs, List.filterMap_cons]
    by_cases hp : p ∈ freeSymsList idx
    · rw [if_pos hp, if_pos hp, ih]
      rcases toIntOpt (substSimp idx p lo) with _ | v
      · rfl
      · rfl
    · rw [if_neg hp, if_neg hp, ih]

theorem collectVals_spec (p : String) (lo : SymExpr) (subs : List Subset) :
    ∀ vals, collectVals p lo subs = .ok vals → vals = specValues p lo subs := by
  induction subs with
  | nil =>
    intro vals h
    rw [collectVals] at h
    simp only [Except.ok.injEq] at h
    rw [← h]
    rfl
  | cons s rest ih =>
    intro vals h
    cases s with
    | range dims =>
      rw [collectVals] at h
      rcases hd : collectDims p lo dims with err | vals1
      · rw [hd] at h; cases h
      · rw [hd] at h
        dsimp only at h
        rcases hr : collectVals p lo rest with err | vals2
        · rw [hr] at h; cases h
        · rw [hr] at h
          simp only [Except.ok.injEq] at h
          rw [← h, specValues, minElement, collectDims_spec p lo dims vals1 hd, ih vals2 hr]
    | indices idxs =>
      rw [collectVals] at h
      rcases hr : collectVals p lo rest with err | vals2
      · rw [hr] at h; cases h
      · rw [hr] at h
        simp only [Except.ok.injEq] at h
        rw [← h, specValues, minElement, collectIdxs_spec, ih vals2 hr]

/-- The derived offset list is exactly the per-parameter minimum of the
specification-side collected values. -/
theorem deriveOffsetsGo_spec (tOut : List Subset) :
    ∀ pl offs, deriveOffsetsGo tOut pl = .ok offs →
      offs = pl.map (fun t => optMin (specValues t.1 t.2 tOut)) := by
  intro pl
  induction pl with
  | nil =>
    intro offs h
    rw [deriveOffsetsGo] at h
    simp only [Except.ok.injEq] at h
    rw [← h]
    rfl
  | cons t rest ih =>
    intro offs h
    obtain ⟨p, lo⟩ := t
    rw [deriveOffsetsGo] at h
    rcases hv : collectVals p lo tOut with err | vals
    · rw [hv] at h; cases h
    · rw [hv] at h
      dsimp only at h
      rcases hr : deriveOffsetsGo tOut rest with err | offs2
      · rw [hr] at h; cases h
      · rw [hr] at h
        simp only [Except.ok.injEq] at h
        rw [← h, List.map_cons, collectVals_spec p lo tOut vals hv, ih offs2 hr]

theorem zip_get (l1 : List String) (l2 : List SymExpr) (i : Nat) (p : String) (lo : SymExpr) :
    l1.get? i = some p → l2.get? i = some lo → (l1.zip l2).get? i = some (p, lo) := by
  induction i generalizing l1 l2 with
  | zero =>
    intro h1 h2
    cases l1 with
    | nil => cases h1
    | cons a r1 =>
      cases l2 with
      | nil => cases h2
      | cons b r2 =>
        simp only [List.get?] at h1 h2
        simp only [Option.some.injEq] at h1 h2
        rw [List.zip_cons_cons]
        simp [h1, h2]
  | succ n ih =>
    intro h1 h2
    cases l1 with
    | nil => cases h1
    | cons a r1 =>
      cases l2 with
      | nil => cases h2
      | cons b r2 =>
        rw [List.zip_cons_cons]
        simp only [List.get?] at h1 h2 ⊢
        exact ih r1 r2 h1 h2

theorem rdictEntry_fst (p : String) (lo : SymExpr) (off : Option Int) :
    (rdictEntry p lo off).1 = p := by
  rcases off with _ | o
  · rfl
  · rw [rdictEntry]
    by_cases ho : o ≠ 0
    · rw [if_pos ho]
    · rw [if_neg ho]

theorem rdictVal_num (p : String) (l o : Int) :
    (rdictEntry p (.num l) (some o)).2 = .num (l - o) := by
  rw [rdictEntry]
  by_cases ho : o ≠ 0
  · rw [if_pos ho]
    exact subSimp_num l o
  · rw [if_neg ho]
    rw [not_not] at ho
    rw [ho]
    norm_num

/-- In the replacement dictionary built by `apply`, the parameter at
position `i` maps to its own entry (the map parameters are distinct). -/
theorem rdict_lookup (params : List String) :
    ∀ (lowers : List SymExpr) (offs : List (Option Int)) (i : Nat) (p : String)
      (lo : SymExpr) (off : Option Int),
      params.Nodup → params.get? i = some p → lowers.get? i = some lo →
      offs.get? i = some off →
      lookupAssoc (rdictOf params lowers offs) p = some ((rdictEntry p lo off).2) := by
  induction params with
  | nil => intro lowers offs i p lo off _ h1; cases h1
  | cons p0 pr ih =>
    intro lowers offs i p lo off hnd h1 h2 h3
    cases lowers with
    | nil => cases h2
    | cons lo0 lr =>
      cases offs with
      | nil => cases h3
      | cons off0 offr =>
        have hrd : rdictOf (p0 :: pr) (lo0 :: lr) (off0 :: offr) =
            rdictEntry p0 lo0 off0 :: rdictOf pr lr offr := rfl
        cases i with
        | zero =>
          simp only [List.get?, Option.some.injEq] at h1 h2 h3
          subst h1; subst h2; subst h3
          rw [hrd, lookupAssoc, rdictEntry_fst, if_pos rfl]
        | succ n =>
          simp only [List.get?] at h1 h2 h3
          have hpmem : p ∈ pr := List.get?_mem h1
          have hne : p0 ≠ p := by
            intro hc
            subst hc
            exact (List.nodup_cons.mp hnd).1 hpmem
          rw [hrd, lookupAssoc, rdictEntry_fst, if_neg hne]
          exact ih lr offr n p lo off (List.nodup_cons.mp hnd).2 h1 h2 h3

/-- C2 (amended): (1) exactly as the claim states, the derived offset for a
parameter `p` is the minimum of the integers obtained by substituting
`p = lo` into the output-side access expressions in which `p` appears, and no
offset is derived when no such value exists (`optMin` of the collected list);
(2) the rewritten output access dimension that attained the minimum becomes
the literal zero, provided that dimension is linear in `p` (the bare
parameter or parameter-plus-constant) and the range lower bound is a literal
— the counterexample theorem shows (2) fails for an accepted non-linear
dimension such as `i**2 + 1`. -/
theorem stencil_C2 (params : List String) (lowers : List SymExpr) (tOut : List Subset)
    (i : Nat) (p : String) (l : Int) (offs : List (Option Int)) (o c : Int)
    (idxs : List SymExpr) (d : Nat) (E : SymExpr)
    (hnd : params.Nodup)
    (hp : params.get? i = some p)
    (hl : lowers.get? i = some (.num l))
    (hoffs : deriveOffsets (ApplyCtx.mk params lowers tOut) = .ok offs)
    (hoi : offs.get? i = some (some o))
    (hsub : Subset.indices idxs ∈ tOut)
    (hdim : idxs.get? d = some E)
    (hlin : LinIn p c E)
    (hattain : substSimp E p (.num l) = .num o) :
    (specValues p (.num l) tOut ≠ [] ∧ optMin (specValues p (.num l) tOut) = some o) ∧
    ∃ idxs2, rewriteSubset (rdictOf params lowers offs) (.indices idxs) = .indices idxs2 ∧
      idxs2.get? d = some (.num 0) := by
  have hzip : (params.zip lowers).get? i = some (p, .num l) := zip_get params lowers i p _ hp hl
  have hspec := deriveOffsetsGo_spec tOut (params.zip lowers) offs hoffs
  have hoi0 := hoi
  have hoi2 : offs.get? i = some (optMin (specValues p (.num l) tOut)) := by
    rw [hspec, List.get?_map, hzip]
    rfl
  rw [hoi2] at hoi
  simp only [Option.some.injEq] at hoi
  constructor
  · constructor
    · intro hnil
      rw [hnil] at hoi
      simp [optMin] at hoi
    · exact hoi
  · have hlk : lookupAssoc (rdictOf params lowers offs) p = some (.num (l - o)) := by
      rw [rdict_lookup params lowers offs i p (.num l) (some o) hnd hp hl hoi0]
      rw [rdictVal_num]
    refine ⟨idxs.map (replaceAll (rdictOf params lowers offs)), rfl, ?_⟩
    rw [List.get?_map, hdim]
    dsimp only [Option.map]
    rcases hlin with ⟨hE, hc⟩ | hE | hE
    · subst hE
      have : substSimp (.sym p) p (.num l) = .num l := by
        rw [substSimp, replace1, if_pos rfl, simp0_num]
      rw [this] at hattain
      injection hattain with hlo
      rw [replaceAll, replaceAllRaw, hlk, simp0_num, hlo, sub_self]
    · subst hE
      have : substSimp (.add (.num c) (.sym p)) p (.num l) = .num (c + l) := by
        rw [substSimp, replace1, replace1, replace1, if_pos rfl, simp0_add_num]
      rw [this] at hattain
      injection hattain with hcl
      rw [replaceAll, replaceAllRaw, replaceAllRaw, replaceAllRaw, hlk, simp0_add_num]
      rw [show c + (l - o) = 0 by omega]
    · subst hE
      have : substSimp (.add (.sym p) (.num c)) p (.num l) = .num (l + c) := by
        rw [substSimp, replace1, replace1, replace1, if_pos rfl, simp0_add_num]
      rw [this] at hattain
      injection hattain with hcl
      rw [replaceAll, replaceAllRaw, replaceAllRaw, replaceAllRaw, hlk, simp0_add_num]
      rw [show l - o + c = 0 by omega]

/-- Witness for C2 on the linear output access `A[i + 1]` with range lower
bound `0`: the derived offset is `1` and the rewritten dimension is `0`. -/
theorem stencil_C2_witness :
    (specValues "i" (.num 0) [.indices [.add (.num 1) (.sym "i")]] ≠ [] ∧
     optMin (specValues "i" (.num 0) [.indices [.add (.num 1) (.sym "i")]]) = some 1) ∧
    ∃ idxs2, rewriteSubset (rdictOf ["i"] [.num 0] [some 1])
        (.indices [.add (.num 1) (.sym "i")]) = .indices idxs2 ∧
      idxs2.get? 0 = some (.num 0) :=
  stencil_C2 ["i"] [.num 0] [.indices [.add (.num 1) (.sym "i")]] 0 "i" 0 [some 1] 1 1
    [.add (.num 1) (.sym "i")] 0 (.add (.num 1) (.sym "i"))
    (by decide) (by decide) (by decide) (by decide) (by decide) (by decide) (by decide)
    (Or.inr (Or.inl rfl)) (by decide)

/-- Inputs `B[i**2 + 1]`, `B[i**2 + 2]`: non-linear but classified as `Add`
with one free symbol. -/
def stC2 : MatchState :=
  MatchState.mk 3 ["i"]
    [Memlet.mk (some "B") (.indices [.add (.num 1) (.pow (.sym "i") 2)]) false,
     Memlet.mk (some "B") (.indices [.add (.num 2) (.pow (.sym "i") 2)]) false]
    [Memlet.mk (some "A") (.indices [.add (.num 1) (.pow (.sym "i") 2)]) false]
    arrA

/-- Counterexample to C2 as stated: the candidate with output `A[i**2 + 1]`
is accepted, the derived offset for `i` (lower bound `0`) is the minimum `1`,
but the rewritten output dimension that attained the minimum is `2`, not
zero: substituting `i -> 0 - 1` into `i**2 + 1` gives `(-1)**2 + 1 = 2`. -/
theorem stencil_C2_counterexample :
    canBeApplied stC2 false = .ok true ∧
    deriveOffsets (ApplyCtx.mk ["i"] [.num 0]
      [.indices [.add (.num 1) (.pow (.sym "i") 2)]]) = .ok [some 1] ∧
    rewriteSubset (rdictOf ["i"] [.num 0] [some 1])
        (.indices [.add (.num 1) (.pow (.sym "i") 2)]) = .indices [.num 2] ∧
    ¬ rewriteSubset (rdictOf ["i"] [.num 0] [some 1])
        (.indices [.add (.num 1) (.pow (.sym "i") 2)]) = .indices [.num 0] := by
  refine ⟨by decide, by decide, by decide, by decide⟩

/-! ## Claim C9: the frame of the final splice -/

theorem addPaths_mem_base (arrays : String → Datadesc) (stencil : Nat)
    (assoc : List (String × Nat)) (toSt : Bool) :
    ∀ l base r, addPaths arrays stencil assoc toSt base l = .ok r → ∀ e ∈ base, e ∈ r := by
  intro l
  induction l with
  | nil =>
    intro base r h e he
    rw [addPaths] at h
    simp only [Except.ok.injEq] at h
    rw [← h]
    exact he
  | cons d rest ih =>
    intro base r h e he
    rw [addPaths] at h
    rcases hf : assocFind d assoc with _ | n
    · rw [hf] at h; cases h
    · rw [hf] at h
      exact ih _ _ h e (List.mem_append_left _ he)

theorem addPaths_mem_all (arrays : String → Datadesc) (stencil : Nat)
    (assoc : List (String × Nat)) (toSt : Bool) :
    ∀ l base r, addPaths arrays stencil assoc toSt base l = .ok r →
      ∀ e ∈ r, e ∈ base ∨ e.src = stencil ∨ e.dst = stencil := by
  intro l
  induction l with
  | nil =>
    intro base r h e he
    rw [addPaths] at h
    simp only [Except.ok.injEq] at h
    rw [← h] at he
    exact Or.inl he
  | cons d rest ih =>
    intro base r h e he
    rw [addPaths] at h
    rcases hf : assocFind d assoc with _ | n
    · rw [hf] at h; cases h
    · rw [hf] at h
      rcases ih _ _ h e he with h2 | h2
      · rcases List.mem_append.mp h2 with h3 | h3
        · exact Or.inl h3
        · have := List.mem_singleton.mp h3
          subst this
          rw [pathEdge]
          rcases toSt with _ | _
          · exact Or.inr (Or.inl rfl)
          · exact Or.inr (Or.inr rfl)
      · exact Or.inr h2

theorem addPaths_adds (arrays : String → Datadesc) (stencil : Nat)
    (assoc : List (String × Nat)) (toSt : Bool) :
    ∀ l base r, addPaths arrays stencil assoc toSt base l = .ok r →
      ∀ d ∈ l, ∀ n, assocFind d assoc = some n →
        pathEdge arrays stencil toSt n d ∈ r := by
  intro l
  induction l with
  | nil => intro base r _ d hd; cases hd
  | cons d0 rest ih =>
    intro base r h d hd n hn
    rw [addPaths] at h
    rcases hf : assocFind d0 assoc with _ | n0
    · rw [hf] at h; cases h
    · rw [hf] at h
      rcases List.mem_cons.mp hd with h1 | h1
      · subst h1
        rw [hn] at hf
        injection hf with hf2
        subst hf2
        exact addPaths_mem_base arrays stencil assoc toSt rest _ r h _
          (List.mem_append_right _ (List.mem_singleton.mpr rfl))
      · exact ih _ _ h d h1 n hn

/-- C9 (amended): the splice keeps every node outside the matched scope and
every edge whose two endpoints are outside the scope, removes the three
scope nodes (and with them all their incident edges: every surviving edge is
an old edge or touches the stencil node), and connects the stencil node to
the recorded external neighbour of each tasklet array with a full-array
access edge — the recorded neighbour being the one on the *last* edge of
that array into the entry (or out of the exit), which is what the dict
assignment `inputs[e.data.data] = e.src` keeps.  The counterexample shows
the claim as stated fails: with two predecessors feeding the same array,
only the last one is reconnected. -/
theorem stencil_C9 (arrays : String → Datadesc) (g : DGraph)
    (entry task exitN stencil : Nat) (g2 : DGraph)
    (hok : spliceApply arrays g entry task exitN stencil = .ok g2) :
    (∀ n ∈ g.nodes, n ∉ [entry, task, exitN] → n ∈ g2.nodes) ∧
    (∀ n ∈ [entry, task, exitN], n ∉ g2.nodes) ∧
    (∀ e ∈ g.edges, e.src ∉ [entry, task, exitN] → e.dst ∉ [entry, task, exitN] →
      e ∈ g2.edges) ∧
    (∀ e ∈ g2.edges, e ∈ g.edges ∨ e.src = stencil ∨ e.dst = stencil) ∧
    (∀ d ∈ inDataOf g task, ∀ n,
      assocFind d (buildPreds entry (inDataOf g task) g.edges) = some n →
      pathEdge arrays stencil true n d ∈ g2.edges) ∧
    (∀ d ∈ outDataOf g task, ∀ n,
      assocFind d (buildSuccs exitN (outDataOf g task) g.edges) = some n →
      pathEdge arrays stencil false n d ∈ g2.edges) := by
  rw [spliceApply] at hok
  rcases h1 : addPaths arrays stencil (buildPreds entry (inDataOf g task) g.edges) true
      (g.edges.filter (fun e => e.src ∉ [entry, task, exitN] ∧ e.dst ∉ [entry, task, exitN]))
      (inDataOf g task) with err | edges2
  · rw [h1] at hok; cases hok
  · rw [h1] at hok
    dsimp only at hok
    rcases h2 : addPaths arrays stencil (buildSuccs exitN (outDataOf g task) g.edges) false
        edges2 (outDataOf g task) with err | edges3
    · rw [h2] at hok; cases hok
    · rw [h2] at hok
      simp only [Except.ok.injEq] at hok
      subst hok
      refine ⟨?_, ?_, ?_, ?_, ?_, ?_⟩
      · intro n hn hns
        simp only [DGraph.mk.injEq, List.mem_filter]
        exact ⟨List.mem_append_left _ hn, by simpa using hns⟩
      · intro n hn hmem
        simp only [List.mem_filter] at hmem
        exact (by simpa using hmem.2 : n ∉ [entry, task, exitN]) hn
      · intro e he hs hd
        refine addPaths_mem_base _ _ _ _ _ _ _ h2 e
          (addPaths_mem_base _ _ _ _ _ _ _ h1 e ?_)
        simp only [List.mem_filter]
        exact ⟨he, by simp [hs, hd]⟩
      · intro e he
        rcases addPaths_mem_all _ _ _ _ _ _ _ h2 e he with h3 | h3
        · rcases addPaths_mem_all _ _ _ _ _ _ _ h1 e h3 with h4 | h4
          · simp only [List.mem_filter] at h4
            exact Or.inl h4.1
          · exact Or.inr h4
        · exact Or.inr h3
      · intro d hd n hn
        exact addPaths_mem_base _ _ _ _ _ _ _ h2 _
          (addPaths_adds _ _ _ _ _ _ _ h1 d hd n hn)
      · intro d hd n hn
        exact addPaths_adds _ _ _ _ _ _ _ h2 d hd n hn

/-- A state with two access nodes (`10` and `11`) both feeding array `A` into
the map entry `1`; tasklet `2`, exit `3`, external successor `12`. -/
def exG : DGraph :=
  DGraph.mk [1, 2, 3, 10, 11, 12]
    [GEdge.mk 10 1 (some "A") (.indices [.num 0]) none none,
     GEdge.mk 11 1 (some "A") (.indices [.num 0]) none none,
     GEdge.mk 1 2 (some "A") (.indices [.sym "i"]) none (some "a"),
     GEdge.mk 2 3 (some "A2") (.indices [.sym "i"]) (some "b") none,
     GEdge.mk 3 12 (some "A2") (.indices [.num 0]) none none]

def arrG (nm : String) : Datadesc :=
  if nm = "A" ∨ nm = "A2" then .array [.sym "N"] else .other

/-- The spliced result: only the later predecessor `11` is reconnected. -/
def exGRes : DGraph :=
  DGraph.mk [10, 11, 12, 99]
    [GEdge.mk 11 99 (some "A") (.range [(.num 0, .add (.num (-1)) (.sym "N"))]) none (some "__A"),
     GEdge.mk 99 12 (some "A2") (.range [(.num 0, .add (.num (-1)) (.sym "N"))]) (some "__A2") none]

/-- Counterexample to C9 as stated: node `10` is a former external
predecessor of the entry whose array `A` is used by the stencil node, yet
after the splice it is connected to nothing — only the last predecessor per
array (`11`) is reconnected, because the `inputs` dict keeps one entry per
array. -/
theorem stencil_C9_counterexample :
    spliceApply arrG exG 1 2 3 99 = .ok exGRes ∧
    GEdge.mk 10 1 (some "A") (.indices [.num 0]) none none ∈ exG.edges ∧
    "A" ∈ inDataOf exG 2 ∧
    (∀ e ∈ exGRes.edges, e.src ≠ 10 ∧ e.dst ≠ 10) := by
  refine ⟨by decide, by decide, by decide, by decide⟩

/-- Witness for C9 on the concrete splice. -/
theorem stencil_C9_witness :
    (∀ n ∈ exG.nodes, n ∉ [1, 2, 3] → n ∈ exGRes.nodes) ∧
    (∀ e ∈ exGRes.edges, e ∈ exG.edges ∨ e.src = 99 ∨ e.dst = 99) := by
  have h := stencil_C9 arrG exG 1 2 3 99 exGRes (by decide)
  exact ⟨h.1, h.2.2.2.1⟩

end StencilDetection

